import Mathlib

/-!
Verification of the viewport-driven tile scheduler and feature-deduplication
engine of the leaflet-tiled-geojson layer (src/src/index.ts).

The TypeScript classes are shallowly embedded as follows.

* `TiledGeoJSONTile` becomes `TGJ.Tile`: its `key`, `fulfilled` flag,
  `featureCollection` and the key set of its `maskedFeatures` record.  The
  per-feature Leaflet layers (`featureLayers`) are rendering plumbing: masking
  is observed through the `maskedFeatures` key set, which is exactly what the
  source consults (`maskFeature` stores under the fid key, `unmaskFeature`
  tests presence and deletes).
* `TiledGeoJSONLod` becomes `TGJ.LodState`: the `tiles` cache, the key set of
  `activeTiles` (the record always maps a key to the same object as `tiles`),
  the `featureHolders` registry, the set of tile keys currently added to the
  LOD layer group (`layers`), the key set of `meta.tiles` (`metaTiles`; the
  hash values are only used to build fetch URLs) and `currentView`.
* Grid cell keys are the integer pairs that the source serializes as the
  string x,y (`tileKey`); the serialization is injective so the pair is used
  directly.
* JavaScript numbers appearing in the geometry (`GridView`) and in LOD
  selection are modeled as rationals; feature ids as naturals.
* Asynchronous tile-load completion is the `loadComplete` transition, firing
  for an existing, not yet fulfilled tile (one fetch resolution per issued
  load), mirroring the fulfilled-state mutation plus the load callback.
-/

namespace TGJ

/-- Grid cell coordinate; the source's string key x,y for integers x, y. -/
abbrev Key := Int × Int

/-- `TiledGeoJSONTile.tileKey`. -/
def tileKey (x y : Int) : Key := (x, y)

/-- A GeoJSON feature as the dedup engine sees it: only the `__fid` tag is
consulted, and it may be undefined. -/
structure Feature where
  fid : Option Nat
deriving DecidableEq, Repr

/-- Insertion into a JavaScript record viewed as a key set: assigning an
already present key leaves the key set unchanged, a new key is appended in
insertion order. -/
def setInsert {α : Type} [DecidableEq α] (l : List α) (a : α) : List α :=
  if a ∈ l then l else l ++ [a]

/-- Deletion of a key from a JavaScript record viewed as a key set.  Record
keys are unique, so deletion removes every occurrence of the key in the
model. -/
def setRemove {α : Type} [DecidableEq α] (l : List α) (a : α) : List α :=
  l.filter (fun b => decide (b ≠ a))

/-- State of one `TiledGeoJSONTile` relevant to scheduling and dedup. -/
structure Tile where
  key : Key
  fulfilled : Bool
  featureCollection : Option (List Feature)
  maskedFeatures : List Nat
deriving DecidableEq, Repr

/-- The defined feature ids of the tile's collection. -/
def Tile.fids (t : Tile) : List Nat :=
  (t.featureCollection.getD []).filterMap Feature.fid

/-- `TiledGeoJSONTile.maskFeature`: when the collection exists, every feature
whose `__fid` equals `fid` is stored into `maskedFeatures[fid]`; on the key set
this adds `fid` exactly when some feature of the collection carries it.  (The
subsequent `removeLayer` call acts on the tile's internal feature layer.) -/
def Tile.maskFeature (t : Tile) (fid : Nat) : Tile :=
  match t.featureCollection with
  | none => t
  | some feats =>
      if feats.any (fun f => decide (f.fid = some fid)) then
        { t with maskedFeatures := setInsert t.maskedFeatures fid }
      else t

/-- `TiledGeoJSONTile.unmaskFeature`: if `fid` is not present in
`maskedFeatures` this is a no-op, otherwise the entry is deleted (and the
tile's internal feature layer re-added). -/
def Tile.unmaskFeature (t : Tile) (fid : Nat) : Tile :=
  if fid ∈ t.maskedFeatures then
    { t with maskedFeatures := setRemove t.maskedFeatures fid }
  else t

/-- `TiledGeoJSONTile.unmaskAll`: deletes every masked entry. -/
def Tile.unmaskAll (t : Tile) : Tile :=
  { t with maskedFeatures := [] }

/-- The `GridView` value: resolution and the five-field cell window. -/
structure GridView where
  resolution : ℚ
  minX : ℤ
  minY : ℤ
  stepsX : ℤ
  stepsY : ℤ
deriving DecidableEq, Repr

/-- The map viewport bounds, `L.LatLngBounds` through its four accessors. -/
structure LatLngBounds where
  west : ℚ
  south : ℚ
  east : ℚ
  north : ℚ
deriving DecidableEq, Repr

/-- The `GridView` constructor. -/
def GridView.make (resolution ox oy : ℚ) (b : LatLngBounds) : GridView :=
  { resolution := resolution
    minX := ⌊(b.west - ox) / resolution⌋
    minY := ⌊(b.south - oy) / resolution⌋
    stepsX := ⌈(b.east - ox) / resolution⌉ - ⌊(b.west - ox) / resolution⌋
    stepsY := ⌈(b.north - oy) / resolution⌉ - ⌊(b.south - oy) / resolution⌋ }

/-- `GridView.sameAs`: strict equality of all five fields. -/
def GridView.sameAs (v other : GridView) : Bool :=
  other.resolution == v.resolution && other.minX == v.minX && other.minY == v.minY
    && other.stepsX == v.stepsX && other.stepsY == v.stepsY

/-- Membership of a cell in the window described by a grid view. -/
def cellInWindow (v : GridView) (x y : ℤ) : Prop :=
  v.minX ≤ x ∧ x < v.minX + v.stepsX ∧ v.minY ≤ y ∧ y < v.minY + v.stepsY

/-- The closed cell rectangle of cell (x, y) intersects the closed bounds
rectangle. -/
def cellIntersectsClosed (r ox oy : ℚ) (b : LatLngBounds) (x y : ℤ) : Prop :=
  ox + x * r ≤ b.east ∧ b.west ≤ ox + (x + 1) * r ∧
    oy + y * r ≤ b.north ∧ b.south ≤ oy + (y + 1) * r

/-- One LOD descriptor as `TiledGeoJSON.updateView` consults it. -/
structure LodMeta where
  maxZoom : ℚ
deriving DecidableEq, Repr

/-- The effective zoom of `TiledGeoJSON.updateView`: the map zoom plus 1 when
the `detectRetina` option is set and the browser reports a retina display. -/
def effectiveZoom (mapZoom : ℚ) (detectRetina retina : Bool) : ℚ :=
  mapZoom + (if detectRetina && retina then 1 else 0)

/-- One iteration of the first LOD-selection loop: take the candidate when the
zoom fits under its max zoom and it is strictly tighter than the current best. -/
def fitStep (zoom : ℚ) (best : Option LodMeta) (lod : LodMeta) : Option LodMeta :=
  match best with
  | none => if zoom ≤ lod.maxZoom then some lod else none
  | some b => if zoom ≤ lod.maxZoom ∧ lod.maxZoom < b.maxZoom then some lod else some b

/-- One iteration of the fallback loop: keep the LOD with the strictly largest
max zoom seen so far. -/
def fallbackStep (best : Option LodMeta) (lod : LodMeta) : Option LodMeta :=
  match best with
  | none => some lod
  | some b => if lod.maxZoom > b.maxZoom then some lod else some b

/-- The LOD-selection portion of `TiledGeoJSON.updateView`. -/
def selectLod (lods : List LodMeta) (zoom : ℚ) : Option LodMeta :=
  match lods.foldl (fitStep zoom) none with
  | some b => some b
  | none => lods.foldl fallbackStep none

/-- State of one `TiledGeoJSONLod`. -/
structure LodState where
  metaTiles : List Key
  tiles : Key → Option Tile
  activeTiles : List Key
  featureHolders : Nat → Option (List Key)
  layers : List Key
  currentView : Option GridView

/-- The holder sequence of a feature id; absent registry entries read as the
empty sequence. -/
def holdersList (s : LodState) (fid : Nat) : List Key :=
  (s.featureHolders fid).getD []

/-- Whether the tile stored at an optional slot has `fid` masked. -/
def maskedIn (o : Option Tile) (fid : Nat) : Prop :=
  match o with
  | none => False
  | some t => fid ∈ t.maskedFeatures

instance maskedInDec (o : Option Tile) (fid : Nat) : Decidable (maskedIn o fid) :=
  match o with
  | none => isFalse (fun h => h)
  | some t => inferInstanceAs (Decidable (fid ∈ t.maskedFeatures))

/-- Apply a mutation to the tile object stored at key `k`, if present. -/
def updateTile (ts : Key → Option Tile) (k : Key) (g : Tile → Tile) : Key → Option Tile :=
  match ts k with
  | none => ts
  | some t => Function.update ts k (some (g t))

/-- One `forEach` iteration of `TiledGeoJSONLod.addFeatureHolders`, threading
the registry and the tile object being registered: skip undefined ids, mask
the feature in this tile when the holder sequence already has entries, then
push this tile's key. -/
def addStep (tkey : Key) (st : (Nat → Option (List Key)) × Tile) (f : Feature) :
    (Nat → Option (List Key)) × Tile :=
  match f.fid with
  | none => st
  | some fid =>
      let cur := (st.1 fid).getD []
      let t := if 0 < cur.length then st.2.maskFeature fid else st.2
      (Function.update st.1 fid (some (cur ++ [tkey])), t)

/-- `TiledGeoJSONLod.addFeatureHolders`, invoked on the tile stored at `tkey`
(the callers pass `this.tiles[key]`). -/
def LodState.addFeatureHolders (s : LodState) (tkey : Key) : LodState :=
  match s.tiles tkey with
  | none => s
  | some tile =>
    match tile.featureCollection with
    | none => s
    | some feats =>
        let r := feats.foldl (addStep tkey) (s.featureHolders, tile)
        { s with featureHolders := r.1, tiles := Function.update s.tiles tkey (some r.2) }

/-- One `forEach` iteration of `TiledGeoJSONLod.removeFeatureHolders`: skip
ids absent from the registry; unmask in the removed tile when its key is not
the head of the sequence (an empty sequence's missing head also compares
unequal); filter the key out; when it was the head and a holder remains,
unmask in the tile at the new head. -/
def removeStep (tkey : Key) (st : (Nat → Option (List Key)) × (Key → Option Tile))
    (f : Feature) : (Nat → Option (List Key)) × (Key → Option Tile) :=
  match f.fid with
  | none => st
  | some fid =>
    match st.1 fid with
    | none => st
    | some holders =>
        let ts1 := if holders.head? = some tkey then st.2
                   else updateTile st.2 tkey (fun t => t.unmaskFeature fid)
        let holders2 := holders.filter (fun k => decide (k ≠ tkey))
        let ts2 := if holders.head? = some tkey ∧ 0 < holders2.length then
                     match holders2.head? with
                     | some nk => updateTile ts1 nk (fun t => t.unmaskFeature fid)
                     | none => ts1
                   else ts1
        (Function.update st.1 fid (some holders2), ts2)

/-- `TiledGeoJSONLod.removeFeatureHolders`, invoked on the tile stored at
`tkey` (the caller passes `this.activeTiles[key]`, the same object as
`this.tiles[key]`).  The trailing diagnostic loop only logs. -/
def LodState.removeFeatureHolders (s : LodState) (tkey : Key) : LodState :=
  match s.tiles tkey with
  | none => s
  | some tile =>
    match tile.featureCollection with
    | none => s
    | some feats =>
        let r := feats.foldl (removeStep tkey) (s.featureHolders, s.tiles)
        { s with featureHolders := r.1, tiles := r.2 }

/-- `this.addLayer(tile)` on the LOD layer group: the tile joins the
renderable layer set. -/
def LodState.addLayerTile (s : LodState) (k : Key) : LodState :=
  { s with layers := setInsert s.layers k }

/-- `this.removeLayer(tile)` on the LOD layer group. -/
def LodState.removeLayerTile (s : LodState) (k : Key) : LodState :=
  { s with layers := setRemove s.layers k }

/-- The synchronous part of `TiledGeoJSONLod.loadTile`: when the cell has an
entry in the LOD's tile index and no tile object exists yet, construct the
tile (which begins its asynchronous fetch; completion is the `loadComplete`
transition below). -/
def freshTile (key : Key) : Tile :=
  { key := key, fulfilled := false, featureCollection := none, maskedFeatures := [] }

def LodState.loadTileStart (s : LodState) (x y : Int) : LodState :=
  let key := tileKey x y
  if key ∈ s.metaTiles then
    if (s.tiles key).isSome then s
    else { s with tiles := Function.update s.tiles key (some (freshTile key)) }
  else s

/-- `TiledGeoJSONLod.showTile`. -/
def LodState.showTile (s : LodState) (x y : Int) : LodState :=
  let key := tileKey x y
  if key ∈ s.metaTiles then
    let s1 := if (s.tiles key).isSome then s else s.loadTileStart x y
    match s1.tiles key with
    | none => s1
    | some tile =>
        let s2 := if tile.fulfilled then (s1.addFeatureHolders key).addLayerTile key else s1
        { s2 with activeTiles := setInsert s2.activeTiles key }
  else s

/-- `TiledGeoJSONLod.hideTile`. -/
def LodState.hideTile (s : LodState) (x y : Int) : LodState :=
  let key := tileKey x y
  if key ∈ s.activeTiles then
    match s.tiles key with
    | none => { s with activeTiles := setRemove s.activeTiles key }
    | some tile =>
        let s1 := if tile.fulfilled then (s.removeLayerTile key).removeFeatureHolders key
                  else s
        { s1 with activeTiles := setRemove s1.activeTiles key }
  else s

/-- The mutation performed on the tile object when its fetch resolves:
store the parsed collection and mark it fulfilled. -/
def loadedTile (tile : Tile) (feats : List Feature) : Tile :=
  { tile with featureCollection := some feats, fulfilled := true }

/-- Completion of a tile's asynchronous load: store the parsed collection,
mark the tile fulfilled, then run the load callback installed by
`TiledGeoJSONLod.loadTile`, which registers holders and renders the tile only
when its key is still in the active-tile set. -/
def LodState.loadComplete (s : LodState) (key : Key) (feats : List Feature) : LodState :=
  match s.tiles key with
  | none => s
  | some tile =>
      let s1 := { s with tiles := Function.update s.tiles key (some (loadedTile tile feats)) }
      if key ∈ s1.activeTiles then (s1.addFeatureHolders key).addLayerTile key else s1

/-- One iteration of the `clearActive` loop: a fulfilled active tile is
removed from the layer group and has all masks cleared. -/
def clearTileStep (acc : LodState) (key : Key) : LodState :=
  match acc.tiles key with
  | none => acc
  | some tile =>
      if tile.fulfilled then
        { acc with layers := setRemove acc.layers key,
                   tiles := Function.update acc.tiles key (some tile.unmaskAll) }
      else acc

/-- `TiledGeoJSONLod.clearActive`: reset the stored view, tear down every
active tile, then empty the registry and the active-tile set. -/
def LodState.clearActive (s : LodState) : LodState :=
  let s1 := s.activeTiles.foldl clearTileStep s
  { s1 with currentView := none, featureHolders := fun _ => none, activeTiles := [] }

/-- The per-cell show step of `TiledGeoJSONLod.updateView`: a cell is shown
only when it is not already active and the tile index holds a (truthy) hash
for it. -/
def LodState.showCellIfNeeded (s : LodState) (x y : Int) : LodState :=
  if tileKey x y ∉ s.activeTiles ∧ tileKey x y ∈ s.metaTiles then s.showTile x y else s

/-- A freshly constructed `TiledGeoJSONLod` over a given tile index. -/
def initState (meta : List Key) : LodState :=
  { metaTiles := meta, tiles := fun _ => none, activeTiles := []
    featureHolders := fun _ => none, layers := [], currentView := none }

/-- The event-driven transitions of one LOD: the guarded show of
`updateView`, hide, load completion of an issued fetch (the tile exists and
is not yet fulfilled; server tiles carry distinct feature ids), and the
teardown performed on a LOD switch. -/
inductive LodStep (s : LodState) : LodState → Prop where
  | showStep (x y : Int) (h : tileKey x y ∉ s.activeTiles) : LodStep s (s.showTile x y)
  | hideStep (x y : Int) : LodStep s (s.hideTile x y)
  | loadStep (k : Key) (t : Tile) (feats : List Feature) (ht : s.tiles k = some t)
      (hf : t.fulfilled = false) (hnd : (feats.filterMap Feature.fid).Nodup) :
      LodStep s (s.loadComplete k feats)
  | clearStep : LodStep s s.clearActive

/-- States of a LOD reachable from construction. -/
def Reachable (meta : List Key) (s : LodState) : Prop :=
  Relation.ReflTransGen (fun a b => LodStep a b) (initState meta) s

/-- The tile at `k` is simultaneously visible (active), fulfilled, and its
collection carries the feature id `fid`. -/
def visHolds (s : LodState) (k : Key) (fid : Nat) : Prop :=
  k ∈ s.activeTiles ∧ ∃ t, s.tiles k = some t ∧ t.fulfilled = true ∧ fid ∈ t.fids

/-- The tile at `k` actually renders feature `fid`: it is visible, fulfilled,
part of the renderable layer set, contains the feature and does not mask it. -/
def rendersFeature (s : LodState) (k : Key) (fid : Nat) : Prop :=
  k ∈ s.activeTiles ∧ k ∈ s.layers ∧
    ∃ t, s.tiles k = some t ∧ t.fulfilled = true ∧ fid ∈ t.fids ∧ fid ∉ t.maskedFeatures

/-- The inductive invariant of a LOD's scheduling state. -/
structure StateInv (s : LodState) : Prop where
  key_eq : ∀ k t, s.tiles k = some t → t.key = k
  fresh_coll : ∀ k t, s.tiles k = some t → t.fulfilled = false → t.featureCollection = none
  fresh_mask : ∀ k t, s.tiles k = some t → t.fulfilled = false → ∀ fid, fid ∉ t.maskedFeatures
  coll_nodup : ∀ k t, s.tiles k = some t → t.fids.Nodup
  active_some : ∀ k, k ∈ s.activeTiles → (s.tiles k).isSome = true
  layers_iff : ∀ k, k ∈ s.layers ↔
    (k ∈ s.activeTiles ∧ ∃ t, s.tiles k = some t ∧ t.fulfilled = true)
  holders_nodup : ∀ fid, (holdersList s fid).Nodup
  holders_iff : ∀ fid k, k ∈ holdersList s fid ↔ visHolds s k fid
  masked_iff : ∀ fid k t, s.tiles k = some t →
    (fid ∈ t.maskedFeatures ↔
      (k ∈ holdersList s fid ∧ (holdersList s fid).head? ≠ some k))

/-- Exactly-once rendering: whenever a feature id is carried by two or more
simultaneously visible fulfilled tiles, the tile at the head of its holder
sequence renders it, every other visible tile containing it masks it, and no
other tile renders it. -/
def dedupOk (s : LodState) : Prop :=
  ∀ fid k1 k2, k1 ≠ k2 → visHolds s k1 fid → visHolds s k2 fid →
    ∃ k0, (holdersList s fid).head? = some k0 ∧ rendersFeature s k0 fid ∧
      (∀ k, rendersFeature s k fid → k = k0) ∧
      (∀ k, visHolds s k fid → k ≠ k0 → ∃ t, s.tiles k = some t ∧ fid ∈ t.maskedFeatures)

/-- Outcome of one fetch attempt: a network-level rejection of the fetch
promise, a fulfilled response whose body/parse step throws, or a parsed
value. -/
inductive FetchResult (α : Type) where
  | rejected
  | bodyError
  | ok (value : α)
deriving DecidableEq

/-- Observable effect of one load attempt's settlement. -/
inductive HandlerEffect (α : Type) where
  | applied (value : α)
  | retryScheduled (delaySeconds nextRetryTime : Nat)
  | unhandledRejection
deriving DecidableEq

/-- How `TiledGeoJSON.loadMeta` settles one fetch attempt: the catch is
attached to the inner `response.text().then(...)` chain inside the outer
`then`, so it sees body/parse failures (logging and scheduling
`loadMeta(retryTime * 2)` after `retryTime` seconds) — but a rejection of the
outer `fetch` promise has no handler attached anywhere. -/
def loadMetaHandle {α : Type} (retryTime : Nat) : FetchResult α → HandlerEffect α
  | .rejected => .unhandledRejection
  | .bodyError => .retryScheduled retryTime (retryTime * 2)
  | .ok v => .applied v

/-- How `TiledGeoJSONTile.loadTile` settles one fetch attempt: the catch is
attached to the end of the whole chain, so both network rejections and
body/parse failures log and schedule `loadTile(retryTime * 2)` after
`retryTime` seconds. -/
def loadTileHandle {α : Type} (retryTime : Nat) : FetchResult α → HandlerEffect α
  | .rejected => .retryScheduled retryTime (retryTime * 2)
  | .bodyError => .retryScheduled retryTime (retryTime * 2)
  | .ok v => .applied v

/-- Both loaders start from `retryTime = 1` (seconds). -/
def initialRetryTime : Nat := 1

/-- The `retryTime` of the metadata loader at the n-th consecutive handled
failure: each retry is invoked with the doubled value. -/
def metaRetrySeq : Nat → Nat
  | 0 => initialRetryTime
  | n + 1 => metaRetrySeq n * 2

/-- The `retryTime` of a tile loader at the n-th consecutive failure. -/
def tileRetrySeq : Nat → Nat
  | 0 => initialRetryTime
  | n + 1 => tileRetrySeq n * 2

section Helpers

lemma mem_setInsert {α : Type} [DecidableEq α] {l : List α} {a b : α} :
    b ∈ setInsert l a ↔ b = a ∨ b ∈ l := by
  unfold setInsert
  by_cases h : a ∈ l
  · simp only [if_pos h]
    constructor
    · exact fun hb => Or.inr hb
    · rintro (rfl | hb)
      · exact h
      · exact hb
  · simp [if_neg h, or_comm]

lemma mem_setRemove {α : Type} [DecidableEq α] {l : List α} {a b : α} :
    b ∈ setRemove l a ↔ b ∈ l ∧ b ≠ a := by
  simp [setRemove]

lemma mem_filter_ne {l : List Key} {a b : Key} :
    b ∈ l.filter (fun k => decide (k ≠ a)) ↔ b ∈ l ∧ b ≠ a := by
  simp

lemma nodup_filter_ne {l : List Key} (h : l.Nodup) (a : Key) :
    (l.filter (fun k => decide (k ≠ a))).Nodup :=
  h.filter _

lemma head?_append_singleton {l : List Key} {a : Key} :
    (l ++ [a]).head? = if l = [] then some a else l.head? := by
  cases l <;> simp

lemma head?_mem_of_ne_nil {l : List Key} {a : Key} (h : l.head? = some a) : a ∈ l := by
  cases l with
  | nil => simp at h
  | cons x xs =>
      simp only [List.head?_cons, Option.some.injEq] at h
      simp [h]

lemma head?_filter_of_head_ne {l : List Key} {h0 a : Key} (hh : l.head? = some h0)
    (hne : h0 ≠ a) : (l.filter (fun k => decide (k ≠ a))).head? = some h0 := by
  cases l with
  | nil => simp at hh
  | cons x xs =>
      simp only [List.head?_cons, Option.some.injEq] at hh
      subst hh
      simp [List.filter_cons, hne]

lemma tile_ext_masked {t : Tile} {m : List Nat} :
    ({ t with maskedFeatures := m } : Tile).key = t.key ∧
    ({ t with maskedFeatures := m } : Tile).fulfilled = t.fulfilled ∧
    ({ t with maskedFeatures := m } : Tile).featureCollection = t.featureCollection := by
  simp

lemma maskFeature_key (t : Tile) (fid : Nat) : (t.maskFeature fid).key = t.key := by
  unfold Tile.maskFeature
  cases hc : t.featureCollection with
  | none => rfl
  | some feats => dsimp only []; split <;> simp

lemma maskFeature_fulfilled (t : Tile) (fid : Nat) :
    (t.maskFeature fid).fulfilled = t.fulfilled := by
  unfold Tile.maskFeature
  cases hc : t.featureCollection with
  | none => rfl
  | some feats => dsimp only []; split <;> simp

lemma maskFeature_coll (t : Tile) (fid : Nat) :
    (t.maskFeature fid).featureCollection = t.featureCollection := by
  unfold Tile.maskFeature
  cases hc : t.featureCollection with
  | none => exact hc
  | some feats => dsimp only []; split <;> simp [hc]

lemma mem_maskFeature_of_ne {t : Tile} {fid g : Nat} (h : g ≠ fid) :
    g ∈ (t.maskFeature fid).maskedFeatures ↔ g ∈ t.maskedFeatures := by
  unfold Tile.maskFeature
  cases hc : t.featureCollection with
  | none => simp
  | some feats =>
      simp only []
      split
      · simp [mem_setInsert, h]
      · simp

lemma mem_maskFeature_self {t : Tile} {fid : Nat} {feats : List Feature}
    (hc : t.featureCollection = some feats) (hf : fid ∈ feats.filterMap Feature.fid) :
    fid ∈ (t.maskFeature fid).maskedFeatures := by
  unfold Tile.maskFeature
  rw [hc]
  simp only []
  have hany : feats.any (fun f => decide (f.fid = some fid)) = true := by
    rw [List.any_eq_true]
    rcases List.mem_filterMap.mp hf with ⟨f, hfmem, hfi⟩
    exact ⟨f, hfmem, by simp [hfi]⟩
  rw [if_pos hany]
  simp [mem_setInsert]

lemma unmaskFeature_key (t : Tile) (fid : Nat) : (t.unmaskFeature fid).key = t.key := by
  unfold Tile.unmaskFeature
  split <;> simp

lemma unmaskFeature_fulfilled (t : Tile) (fid : Nat) :
    (t.unmaskFeature fid).fulfilled = t.fulfilled := by
  unfold Tile.unmaskFeature
  split <;> simp

lemma unmaskFeature_coll (t : Tile) (fid : Nat) :
    (t.unmaskFeature fid).featureCollection = t.featureCollection := by
  unfold Tile.unmaskFeature
  split <;> simp

lemma unmaskFeature_not_mem_self (t : Tile) (fid : Nat) :
    fid ∉ (t.unmaskFeature fid).maskedFeatures := by
  unfold Tile.unmaskFeature
  split
  · simp [mem_setRemove]
  · assumption

lemma mem_unmaskFeature_of_ne {t : Tile} {fid g : Nat} (h : g ≠ fid) :
    g ∈ (t.unmaskFeature fid).maskedFeatures ↔ g ∈ t.maskedFeatures := by
  unfold Tile.unmaskFeature
  split
  · simp [mem_setRemove, h]
  · rfl

lemma tile_fids_of_coll {t : Tile} {feats : List Feature}
    (hc : t.featureCollection = some feats) : t.fids = feats.filterMap Feature.fid := by
  simp [Tile.fids, hc]

lemma updateTile_ne {ts : Key → Option Tile} {k k' : Key} {g : Tile → Tile}
    (h : k' ≠ k) : updateTile ts k g k' = ts k' := by
  unfold updateTile
  cases hk : ts k with
  | none => rfl
  | some t => simp [Function.update_noteq h]

lemma updateTile_self {ts : Key → Option Tile} {k : Key} {g : Tile → Tile} :
    updateTile ts k g k = (ts k).map g := by
  unfold updateTile
  cases hk : ts k with
  | none => simp [hk]
  | some t => simp [hk, Function.update_same]

lemma maskedIn_none {fid : Nat} : ¬ maskedIn none fid := fun h => h

lemma maskedIn_some {t : Tile} {fid : Nat} :
    maskedIn (some t) fid ↔ fid ∈ t.maskedFeatures := Iff.rfl

end Helpers

section AddFold

lemma addFold_shape (tkey : Key) (l : List Feature) :
    ∀ (hs : Nat → Option (List Key)) (t : Tile),
      (l.foldl (addStep tkey) (hs, t)).2.key = t.key ∧
      (l.foldl (addStep tkey) (hs, t)).2.fulfilled = t.fulfilled ∧
      (l.foldl (addStep tkey) (hs, t)).2.featureCollection = t.featureCollection := by
  induction l with
  | nil => intro hs t; exact ⟨rfl, rfl, rfl⟩
  | cons g rest ih =>
      intro hs t
      rw [List.foldl_cons]
      cases hg : g.fid with
      | none => simpa [addStep, hg] using ih hs t
      | some gf =>
          simp only [addStep, hg]
          by_cases hlen : 0 < ((hs gf).getD []).length
          · simp only [if_pos hlen]
            rcases ih (Function.update hs gf (some ((hs gf).getD [] ++ [tkey])))
              (t.maskFeature gf) with ⟨h1, h2, h3⟩
            exact ⟨h1.trans (maskFeature_key t gf), h2.trans (maskFeature_fulfilled t gf),
              h3.trans (maskFeature_coll t gf)⟩
          · simp only [if_neg hlen]
            exact ih _ t

lemma addFold_frame (tkey : Key) (l : List Feature) :
    ∀ (hs : Nat → Option (List Key)) (t : Tile) (fid : Nat),
      fid ∉ l.filterMap Feature.fid →
      (l.foldl (addStep tkey) (hs, t)).1 fid = hs fid ∧
      (fid ∈ (l.foldl (addStep tkey) (hs, t)).2.maskedFeatures ↔
        fid ∈ t.maskedFeatures) := by
  induction l with
  | nil => intro hs t fid _; exact ⟨rfl, Iff.rfl⟩
  | cons g rest ih =>
      intro hs t fid hf
      rw [List.foldl_cons]
      cases hg : g.fid with
      | none =>
          have hf2 : fid ∉ rest.filterMap Feature.fid := by
            intro hmem; exact hf (by simp [List.filterMap_cons, hg, hmem])
          simpa [addStep, hg] using ih hs t fid hf2
      | some gf =>
          have hne : gf ≠ fid := by
            intro h; subst h
            exact hf (by simp [List.filterMap_cons, hg])
          have hf2 : fid ∉ rest.filterMap Feature.fid := by
            intro hmem; exact hf (by simp [List.filterMap_cons, hg, hmem])
          simp only [addStep, hg]
          by_cases hlen : 0 < ((hs gf).getD []).length
          · simp only [if_pos hlen]
            rcases ih (Function.update hs gf (some ((hs gf).getD [] ++ [tkey])))
              (t.maskFeature gf) fid hf2 with ⟨h1, h2⟩
            refine ⟨?_, ?_⟩
            · rw [h1, Function.update_noteq (Ne.symm hne)]
            · rw [h2, mem_maskFeature_of_ne (Ne.symm hne)]
          · simp only [if_neg hlen]
            rcases ih (Function.update hs gf (some ((hs gf).getD [] ++ [tkey]))) t fid hf2
              with ⟨h1, h2⟩
            exact ⟨h1.trans (Function.update_noteq (Ne.symm hne) _ _), h2⟩

lemma addFold_mem (tkey : Key) (feats : List Feature) :
    ∀ (l : List Feature) (hs : Nat → Option (List Key)) (t : Tile) (fid : Nat),
      t.featureCollection = some feats →
      (∀ f ∈ l, f ∈ feats) →
      (l.filterMap Feature.fid).Nodup →
      fid ∈ l.filterMap Feature.fid →
      (l.foldl (addStep tkey) (hs, t)).1 fid = some ((hs fid).getD [] ++ [tkey]) ∧
      (fid ∈ (l.foldl (addStep tkey) (hs, t)).2.maskedFeatures ↔
        (fid ∈ t.maskedFeatures ∨ (hs fid).getD [] ≠ [])) := by
  intro l
  induction l with
  | nil => intro hs t fid _ _ _ hm; simp at hm
  | cons g rest ih =>
      intro hs t fid hcoll hsub hnd hm
      rw [List.foldl_cons]
      cases hg : g.fid with
      | none =>
          have hm2 : fid ∈ rest.filterMap Feature.fid := by
            simpa [List.filterMap_cons, hg] using hm
          have hnd2 : (rest.filterMap Feature.fid).Nodup := by
            simpa [List.filterMap_cons, hg] using hnd
          simpa [addStep, hg] using
            ih hs t fid hcoll (fun f hf => hsub f (List.mem_cons_of_mem g hf)) hnd2 hm2
      | some gf =>
          rw [show List.filterMap Feature.fid (g :: rest)
                = gf :: List.filterMap Feature.fid rest by simp [List.filterMap_cons, hg]]
            at hm hnd
          rcases List.nodup_cons.mp hnd with ⟨hgf_rest, hnd2⟩
          simp only [addStep, hg]
          rcases List.mem_cons.mp hm with rfl | hm2
          · -- this iteration registers fid
            have hrest : fid ∉ rest.filterMap Feature.fid := hgf_rest
            by_cases hlen : 0 < ((hs fid).getD []).length
            · simp only [if_pos hlen]
              rcases addFold_frame tkey rest
                (Function.update hs fid (some ((hs fid).getD [] ++ [tkey])))
                (t.maskFeature fid) fid hrest with ⟨h1, h2⟩
              refine ⟨h1.trans (Function.update_same _ _ _), ?_⟩
              rw [h2]
              have hself : fid ∈ (t.maskFeature fid).maskedFeatures :=
                mem_maskFeature_self hcoll
                  (List.mem_filterMap.mpr ⟨g, hsub g (List.mem_cons_self g rest), hg⟩)
              simp only [hself, true_iff]
              right
              exact List.length_pos.mp hlen
            · simp only [if_neg hlen]
              rcases addFold_frame tkey rest
                (Function.update hs fid (some ((hs fid).getD [] ++ [tkey]))) t fid hrest
                with ⟨h1, h2⟩
              refine ⟨h1.trans (Function.update_same _ _ _), ?_⟩
              rw [h2]
              have hnil : (hs fid).getD [] = [] := by
                rcases List.eq_nil_or_concat ((hs fid).getD []) with h | ⟨l2, a, h⟩
                · exact h
                · exfalso; apply hlen; simp [h]
              simp [hnil]
          · -- fid handled later in the fold
            have hne : gf ≠ fid := fun h => hgf_rest (h ▸ hm2)
            have hcoll2 : (if 0 < ((hs gf).getD []).length then t.maskFeature gf
                else t).featureCollection = some feats := by
              split
              · rw [maskFeature_coll]; exact hcoll
              · exact hcoll
            rcases ih (Function.update hs gf (some ((hs gf).getD [] ++ [tkey])))
              (if 0 < ((hs gf).getD []).length then t.maskFeature gf else t) fid hcoll2
              (fun f hf => hsub f (List.mem_cons_of_mem g hf)) hnd2 hm2 with ⟨h1, h2⟩
            constructor
            · rw [h1, Function.update_noteq (Ne.symm hne)]
            · rw [h2, Function.update_noteq (Ne.symm hne)]
              constructor
              · rintro (hmem | hnonnil)
                · left
                  by_cases hlen : 0 < ((hs gf).getD []).length
                  · rw [if_pos hlen] at hmem
                    exact (mem_maskFeature_of_ne (Ne.symm hne)).mp hmem
                  · rwa [if_neg hlen] at hmem
                · right; exact hnonnil
              · rintro (hmem | hnonnil)
                · left
                  by_cases hlen : 0 < ((hs gf).getD []).length
                  · rw [if_pos hlen]
                    exact (mem_maskFeature_of_ne (Ne.symm hne)).mpr hmem
                  · rwa [if_neg hlen]
                · right; exact hnonnil

end AddFold

section AddSpec

lemma addFeatureHolders_frames {s : LodState} {tkey : Key} :
    (s.addFeatureHolders tkey).metaTiles = s.metaTiles ∧
    (s.addFeatureHolders tkey).activeTiles = s.activeTiles ∧
    (s.addFeatureHolders tkey).layers = s.layers ∧
    (s.addFeatureHolders tkey).currentView = s.currentView := by
  rcases ht : s.tiles tkey with _ | tile
  · simp [LodState.addFeatureHolders, ht]
  · rcases hc : tile.featureCollection with _ | feats
    · simp [LodState.addFeatureHolders, ht, hc]
    · simp [LodState.addFeatureHolders, ht, hc]

lemma addFeatureHolders_tiles_ne {s : LodState} {tkey k : Key} (hk : k ≠ tkey) :
    (s.addFeatureHolders tkey).tiles k = s.tiles k := by
  rcases ht : s.tiles tkey with _ | tile
  · simp only [LodState.addFeatureHolders, ht]
  · rcases hc : tile.featureCollection with _ | feats
    · simp only [LodState.addFeatureHolders, ht, hc]
    · simp only [LodState.addFeatureHolders, ht, hc]
      exact Function.update_noteq hk _ _

lemma addFeatureHolders_tile_self {s : LodState} {tkey : Key} {tile : Tile}
    {feats : List Feature} (ht : s.tiles tkey = some tile)
    (hc : tile.featureCollection = some feats)
    (hnd : (feats.filterMap Feature.fid).Nodup) :
    ∃ t2, (s.addFeatureHolders tkey).tiles tkey = some t2 ∧
      t2.key = tile.key ∧ t2.fulfilled = tile.fulfilled ∧
      t2.featureCollection = tile.featureCollection ∧
      ∀ fid, fid ∈ t2.maskedFeatures ↔
        (fid ∈ tile.maskedFeatures ∨
          (fid ∈ feats.filterMap Feature.fid ∧ holdersList s fid ≠ [])) := by
  simp only [LodState.addFeatureHolders, ht, hc]
  refine ⟨(feats.foldl (addStep tkey) (s.featureHolders, tile)).2,
    Function.update_same _ _ _, ?_, ?_, ?_, ?_⟩
  · exact (addFold_shape tkey feats s.featureHolders tile).1
  · exact (addFold_shape tkey feats s.featureHolders tile).2.1
  · exact (addFold_shape tkey feats s.featureHolders tile).2.2.trans hc
  · intro fid
    by_cases hf : fid ∈ feats.filterMap Feature.fid
    · rcases addFold_mem tkey feats feats s.featureHolders tile fid hc
        (fun f hf2 => hf2) hnd hf with ⟨_, h2⟩
      rw [h2]
      simp only [hf, true_and]
      rfl
    · rcases addFold_frame tkey feats s.featureHolders tile fid hf with ⟨_, h2⟩
      rw [h2]
      simp [hf]

lemma addFeatureHolders_holders_not_mem {s : LodState} {tkey : Key} {tile : Tile}
    {feats : List Feature} (ht : s.tiles tkey = some tile)
    (hc : tile.featureCollection = some feats) {fid : Nat}
    (hf : fid ∉ feats.filterMap Feature.fid) :
    (s.addFeatureHolders tkey).featureHolders fid = s.featureHolders fid := by
  simp only [LodState.addFeatureHolders, ht, hc]
  exact (addFold_frame tkey feats s.featureHolders tile fid hf).1

lemma addFeatureHolders_holders_mem {s : LodState} {tkey : Key} {tile : Tile}
    {feats : List Feature} (ht : s.tiles tkey = some tile)
    (hc : tile.featureCollection = some feats)
    (hnd : (feats.filterMap Feature.fid).Nodup) {fid : Nat}
    (hf : fid ∈ feats.filterMap Feature.fid) :
    (s.addFeatureHolders tkey).featureHolders fid = some (holdersList s fid ++ [tkey]) := by
  simp only [LodState.addFeatureHolders, ht, hc]
  exact (addFold_mem tkey feats feats s.featureHolders tile fid hc
    (fun f hf2 => hf2) hnd hf).1

lemma addFeatureHolders_none_coll {s : LodState} {tkey : Key} {tile : Tile}
    (ht : s.tiles tkey = some tile) (hc : tile.featureCollection = none) :
    s.addFeatureHolders tkey = s := by
  simp only [LodState.addFeatureHolders, ht, hc]

end AddSpec

section RemoveFold

/-- Shape of an optional tile slot: everything except the masked set. -/
def tshape (o : Option Tile) : Option (Key × Bool × Option (List Feature)) :=
  o.map (fun t => (t.key, t.fulfilled, t.featureCollection))

lemma tshape_eq_elim {o1 o2 : Option Tile} (h : tshape o1 = tshape o2) :
    (o1 = none ∧ o2 = none) ∨
    (∃ t1 t2, o1 = some t1 ∧ o2 = some t2 ∧ t1.key = t2.key ∧
      t1.fulfilled = t2.fulfilled ∧ t1.featureCollection = t2.featureCollection) := by
  cases o1 with
  | none =>
      cases o2 with
      | none => exact Or.inl ⟨rfl, rfl⟩
      | some t2 => simp [tshape] at h
  | some t1 =>
      cases o2 with
      | none => simp [tshape] at h
      | some t2 =>
          simp only [tshape, Option.map_some', Option.some.injEq, Prod.mk.injEq] at h
          exact Or.inr ⟨t1, t2, rfl, rfl, h.1, h.2.1, h.2.2⟩

lemma tshape_updateTile_unmask (ts : Key → Option Tile) (k2 : Key) (gf : Nat) (k : Key) :
    tshape (updateTile ts k2 (fun t => t.unmaskFeature gf) k) = tshape (ts k) := by
  by_cases hk : k = k2
  · subst hk
    rw [updateTile_self]
    cases h : ts k with
    | none => simp [tshape]
    | some t => simp [tshape, unmaskFeature_key, unmaskFeature_fulfilled, unmaskFeature_coll]
  · rw [updateTile_ne hk]

lemma maskedIn_updateTile_of_ne {ts : Key → Option Tile} {k2 : Key} {gf fid : Nat}
    (h : fid ≠ gf) (k : Key) :
    maskedIn (updateTile ts k2 (fun t => t.unmaskFeature gf) k) fid ↔
      maskedIn (ts k) fid := by
  by_cases hk : k = k2
  · subst hk
    rw [updateTile_self]
    cases hts : ts k with
    | none => exact Iff.rfl
    | some t => simpa [maskedIn] using mem_unmaskFeature_of_ne h
  · rw [updateTile_ne hk]

lemma maskedIn_updateTile_self_unmask (ts : Key → Option Tile) (k2 : Key) (fid : Nat) :
    ¬ maskedIn (updateTile ts k2 (fun t => t.unmaskFeature fid) k2) fid := by
  rw [updateTile_self]
  cases hts : ts k2 with
  | none => exact fun h => h
  | some t => simpa [maskedIn] using unmaskFeature_not_mem_self t fid

lemma removeStep_shape (tkey : Key) (st : (Nat → Option (List Key)) × (Key → Option Tile))
    (f : Feature) (k : Key) :
    tshape ((removeStep tkey st f).2 k) = tshape (st.2 k) := by
  cases hg : f.fid with
  | none => simp [removeStep, hg]
  | some gf =>
      cases hh : st.1 gf with
      | none => simp [removeStep, hg, hh]
      | some holders =>
          simp only [removeStep, hg, hh]
          by_cases hhead : holders.head? = some tkey
          · simp only [if_pos hhead]
            by_cases hlen : holders.head? = some tkey ∧
                0 < (holders.filter (fun k => decide (k ≠ tkey))).length
            · simp only [if_pos hlen]
              cases hnk : (holders.filter (fun k => decide (k ≠ tkey))).head? with
              | none => rfl
              | some nk => exact tshape_updateTile_unmask _ _ _ _
            · simp only [if_neg hlen]
          · simp only [if_neg hhead]
            have hcond : ¬ (holders.head? = some tkey ∧
                0 < (holders.filter (fun k => decide (k ≠ tkey))).length) := by
              intro hc; exact hhead hc.1
            simp only [if_neg hcond]
            exact tshape_updateTile_unmask _ _ _ _

lemma removeFold_shape (tkey : Key) (l : List Feature) :
    ∀ (st : (Nat → Option (List Key)) × (Key → Option Tile)) (k : Key),
      tshape ((l.foldl (removeStep tkey) st).2 k) = tshape (st.2 k) := by
  induction l with
  | nil => intro st k; rfl
  | cons g rest ih =>
      intro st k
      rw [List.foldl_cons]
      exact (ih (removeStep tkey st g) k).trans (removeStep_shape tkey st g k)

lemma removeStep_frame (tkey : Key) (st : (Nat → Option (List Key)) × (Key → Option Tile))
    (f : Feature) (fid : Nat) (hne : f.fid ≠ some fid) :
    (removeStep tkey st f).1 fid = st.1 fid ∧
    ∀ k, maskedIn ((removeStep tkey st f).2 k) fid ↔ maskedIn (st.2 k) fid := by
  cases hg : f.fid with
  | none => simp [removeStep, hg]
  | some gf =>
      have hgf : fid ≠ gf := by
        intro h; exact hne (by rw [hg, h])
      cases hh : st.1 gf with
      | none => simp [removeStep, hg, hh]
      | some holders =>
          simp only [removeStep, hg, hh]
          constructor
          · exact Function.update_noteq hgf _ _
          · intro k
            by_cases hhead : holders.head? = some tkey
            · simp only [if_pos hhead]
              by_cases hlen : holders.head? = some tkey ∧
                  0 < (holders.filter (fun k => decide (k ≠ tkey))).length
              · simp only [if_pos hlen]
                cases hnk : (holders.filter (fun k => decide (k ≠ tkey))).head? with
                | none => exact Iff.rfl
                | some nk => exact maskedIn_updateTile_of_ne hgf k
              · simp only [if_neg hlen]
            · simp only [if_neg hhead]
              have hcond : ¬ (holders.head? = some tkey ∧
                  0 < (holders.filter (fun k => decide (k ≠ tkey))).length) := by
                intro hc; exact hhead hc.1
              simp only [if_neg hcond]
              exact maskedIn_updateTile_of_ne hgf k

lemma removeFold_frame (tkey : Key) (l : List Feature) :
    ∀ (st : (Nat → Option (List Key)) × (Key → Option Tile)) (fid : Nat),
      fid ∉ l.filterMap Feature.fid →
      (l.foldl (removeStep tkey) st).1 fid = st.1 fid ∧
      ∀ k, maskedIn ((l.foldl (removeStep tkey) st).2 k) fid ↔ maskedIn (st.2 k) fid := by
  induction l with
  | nil => intro st fid _; exact ⟨rfl, fun k => Iff.rfl⟩
  | cons g rest ih =>
      intro st fid hf
      have hgne : g.fid ≠ some fid := by
        intro h
        exact hf (by simp [List.filterMap_cons, h])
      have hf2 : fid ∉ rest.filterMap Feature.fid := by
        intro hmem
        apply hf
        rcases hg : g.fid with _ | gf <;> simp [List.filterMap_cons, hg, hmem]
      rw [List.foldl_cons]
      rcases ih (removeStep tkey st g) fid hf2 with ⟨h1, h2⟩
      rcases removeStep_frame tkey st g fid hgne with ⟨h3, h4⟩
      exact ⟨h1.trans h3, fun k => (h2 k).trans (h4 k)⟩

/-- The net effect of removing tile `tkey` on the masked state of the tile
slot at `k`, for a feature id whose holder sequence was `l0`: the removed tile
itself ends unmasked unless its key was the head; the tile promoted to the new
head ends unmasked; all other slots keep their old masked state `orig`. -/
def removedMask (tkey k : Key) (l0 : List Key) (orig : Prop) : Prop :=
  if k = tkey then (l0.head? = some tkey ∧ orig)
  else if l0.head? = some tkey ∧ (l0.filter (fun x => decide (x ≠ tkey))).head? = some k
    then False
  else orig

lemma removedMask_congr {tkey k : Key} {l0 : List Key} {p q : Prop} (h : p ↔ q) :
    removedMask tkey k l0 p ↔ removedMask tkey k l0 q := by
  unfold removedMask
  split
  · exact and_congr_right (fun _ => h)
  · split
    · exact Iff.rfl
    · exact h

lemma removeFold_mem_none (tkey : Key) (l : List Feature) :
    ∀ (st : (Nat → Option (List Key)) × (Key → Option Tile)) (fid : Nat),
      (l.filterMap Feature.fid).Nodup →
      fid ∈ l.filterMap Feature.fid →
      st.1 fid = none →
      (l.foldl (removeStep tkey) st).1 fid = none ∧
      ∀ k, maskedIn ((l.foldl (removeStep tkey) st).2 k) fid ↔ maskedIn (st.2 k) fid := by
  induction l with
  | nil => intro st fid _ hm _; simp at hm
  | cons g rest ih =>
      intro st fid hnd hm hnone
      rw [List.foldl_cons]
      cases hg : g.fid with
      | none =>
          have hm2 : fid ∈ rest.filterMap Feature.fid := by
            simpa [List.filterMap_cons, hg] using hm
          have hnd2 : (rest.filterMap Feature.fid).Nodup := by
            simpa [List.filterMap_cons, hg] using hnd
          have hst : removeStep tkey st g = st := by simp [removeStep, hg]
          rw [hst]
          exact ih st fid hnd2 hm2 hnone
      | some gf =>
          rw [show List.filterMap Feature.fid (g :: rest)
                = gf :: List.filterMap Feature.fid rest by simp [List.filterMap_cons, hg]]
            at hm hnd
          rcases List.nodup_cons.mp hnd with ⟨hgf_rest, hnd2⟩
          rcases List.mem_cons.mp hm with rfl | hm2
          · -- the iteration of fid itself: registry has no entry, so it is skipped
            have hst : removeStep tkey st g = st := by simp [removeStep, hg, hnone]
            rw [hst]
            rcases removeFold_frame tkey rest st fid hgf_rest with ⟨h1, h2⟩
            exact ⟨h1.trans hnone, h2⟩
          · have hgne : g.fid ≠ some fid := by
              rw [hg]
              intro h
              injection h with h
              exact hgf_rest (h ▸ hm2)
            rcases removeStep_frame tkey st g fid hgne with ⟨h3, h4⟩
            rcases ih (removeStep tkey st g) fid hnd2 hm2 (h3.trans hnone) with ⟨h1, h2⟩
            exact ⟨h1, fun k => (h2 k).trans (h4 k)⟩

lemma maskedIn_updateTile_slot_ne {ts : Key → Option Tile} {k k2 : Key}
    {g : Tile → Tile} (hk : k ≠ k2) (fid : Nat) :
    maskedIn (updateTile ts k2 g k) fid ↔ maskedIn (ts k) fid := by
  rw [updateTile_ne hk]

lemma removeFold_mem_some (tkey : Key) (l : List Feature) :
    ∀ (st : (Nat → Option (List Key)) × (Key → Option Tile)) (fid : Nat)
      (l0 : List Key),
      (l.filterMap Feature.fid).Nodup →
      fid ∈ l.filterMap Feature.fid →
      st.1 fid = some l0 →
      (l.foldl (removeStep tkey) st).1 fid
        = some (l0.filter (fun k => decide (k ≠ tkey))) ∧
      ∀ k, maskedIn ((l.foldl (removeStep tkey) st).2 k) fid ↔
        removedMask tkey k l0 (maskedIn (st.2 k) fid) := by
  induction l with
  | nil => intro st fid l0 _ hm _; simp at hm
  | cons g rest ih =>
      intro st fid l0 hnd hm hsome
      rw [List.foldl_cons]
      cases hg : g.fid with
      | none =>
          have hm2 : fid ∈ rest.filterMap Feature.fid := by
            simpa [List.filterMap_cons, hg] using hm
          have hnd2 : (rest.filterMap Feature.fid).Nodup := by
            simpa [List.filterMap_cons, hg] using hnd
          have hst : removeStep tkey st g = st := by simp [removeStep, hg]
          rw [hst]
          exact ih st fid l0 hnd2 hm2 hsome
      | some gf =>
          rw [show List.filterMap Feature.fid (g :: rest)
                = gf :: List.filterMap Feature.fid rest by simp [List.filterMap_cons, hg]]
            at hm hnd
          rcases List.nodup_cons.mp hnd with ⟨hgf_rest, hnd2⟩
          rcases List.mem_cons.mp hm with rfl | hm2
          · -- this iteration processes fid
            rcases removeFold_frame tkey rest (removeStep tkey st g) fid hgf_rest
              with ⟨h1, h2⟩
            constructor
            · rw [h1]
              simp only [removeStep, hg, hsome]
              exact Function.update_same _ _ _
            · intro k
              rw [h2 k]
              clear h1 h2
              simp only [removeStep, hg, hsome]
              by_cases hhead : l0.head? = some tkey
              · simp only [if_pos hhead]
                rcases hl2 : l0.filter (fun x => decide (x ≠ tkey)) with _ | ⟨nk, rest2⟩
                · have hcond : ¬ (l0.head? = some tkey ∧ 0 < ([] : List Key).length) := by
                    intro hc
                    simp at hc
                  rw [if_neg hcond]
                  unfold removedMask
                  by_cases hk : k = tkey
                  · simp [hk, hhead]
                  · have hno : ¬ (l0.head? = some tkey ∧
                        (l0.filter (fun x => decide (x ≠ tkey))).head? = some k) := by
                      intro hc
                      rw [hl2] at hc
                      simp at hc
                    rw [if_neg hk, if_neg hno]
                · have hnkmem : nk ∈ l0.filter (fun x => decide (x ≠ tkey)) := by
                    rw [hl2]
                    exact List.mem_cons_self nk rest2
                  have hnk_ne : nk ≠ tkey := (mem_filter_ne.mp hnkmem).2
                  simp only [List.head?_cons]
                  have hcondr : l0.head? = some tkey ∧ 0 < (nk :: rest2).length :=
                    ⟨hhead, by simp⟩
                  rw [if_pos hcondr]
                  unfold removedMask
                  by_cases hk : k = tkey
                  · subst hk
                    rw [if_pos rfl,
                      maskedIn_updateTile_slot_ne (fun h => hnk_ne h.symm)]
                    simp [hhead]
                  · rw [if_neg hk]
                    by_cases hkn : k = nk
                    · subst hkn
                      have hcond2 : l0.head? = some tkey ∧
                          (l0.filter (fun x => decide (x ≠ tkey))).head? = some k := by
                        rw [hl2]
                        exact ⟨hhead, rfl⟩
                      rw [if_pos hcond2]
                      simp only [iff_false]
                      exact maskedIn_updateTile_self_unmask _ _ _
                    · have hcond2 : ¬ (l0.head? = some tkey ∧
                          (l0.filter (fun x => decide (x ≠ tkey))).head? = some k) := by
                        intro hc
                        rw [hl2] at hc
                        simp only [List.head?_cons, Option.some.injEq] at hc
                        exact hkn hc.2.symm
                      rw [if_neg hcond2]
                      exact maskedIn_updateTile_slot_ne hkn fid
              · simp only [if_neg hhead]
                have hcond : ¬ (l0.head? = some tkey ∧
                    0 < (l0.filter (fun k => decide (k ≠ tkey))).length) := by
                  intro hc
                  exact hhead hc.1
                simp only [if_neg hcond]
                unfold removedMask
                by_cases hk : k = tkey
                · subst hk
                  rw [if_pos rfl]
                  constructor
                  · intro h
                    exact absurd h (maskedIn_updateTile_self_unmask _ _ _)
                  · intro h
                    exact absurd h.1 hhead
                · rw [if_neg hk]
                  have hcond2 : ¬ (l0.head? = some tkey ∧
                      (l0.filter (fun x => decide (x ≠ tkey))).head? = some k) := by
                    intro hc
                    exact hhead hc.1
                  rw [if_neg hcond2]
                  exact maskedIn_updateTile_slot_ne hk fid
          · have hgne : g.fid ≠ some fid := by
              rw [hg]
              intro h
              injection h with h
              exact hgf_rest (h ▸ hm2)
            rcases removeStep_frame tkey st g fid hgne with ⟨h3, h4⟩
            rcases ih (removeStep tkey st g) fid l0 hnd2 hm2 (h3.trans hsome) with ⟨h1, h2⟩
            exact ⟨h1, fun k => (h2 k).trans (removedMask_congr (h4 k))⟩

end RemoveFold

section RemoveSpec

lemma removeFeatureHolders_frames {s : LodState} {tkey : Key} :
    (s.removeFeatureHolders tkey).metaTiles = s.metaTiles ∧
    (s.removeFeatureHolders tkey).activeTiles = s.activeTiles ∧
    (s.removeFeatureHolders tkey).layers = s.layers ∧
    (s.removeFeatureHolders tkey).currentView = s.currentView := by
  rcases ht : s.tiles tkey with _ | tile
  · simp [LodState.removeFeatureHolders, ht]
  · rcases hc : tile.featureCollection with _ | feats
    · simp [LodState.removeFeatureHolders, ht, hc]
    · simp [LodState.removeFeatureHolders, ht, hc]

lemma removeFeatureHolders_tshape {s : LodState} {tkey : Key} (k : Key) :
    tshape ((s.removeFeatureHolders tkey).tiles k) = tshape (s.tiles k) := by
  rcases ht : s.tiles tkey with _ | tile
  · simp [LodState.removeFeatureHolders, ht]
  · rcases hc : tile.featureCollection with _ | feats
    · simp [LodState.removeFeatureHolders, ht, hc]
    · simp only [LodState.removeFeatureHolders, ht, hc]
      exact removeFold_shape tkey feats (s.featureHolders, s.tiles) k

lemma removeFeatureHolders_none_coll {s : LodState} {tkey : Key} {tile : Tile}
    (ht : s.tiles tkey = some tile) (hc : tile.featureCollection = none) :
    s.removeFeatureHolders tkey = s := by
  simp only [LodState.removeFeatureHolders, ht, hc]

lemma removeFeatureHolders_not_mem {s : LodState} {tkey : Key} {tile : Tile}
    {feats : List Feature} (ht : s.tiles tkey = some tile)
    (hc : tile.featureCollection = some feats) {fid : Nat}
    (hf : fid ∉ feats.filterMap Feature.fid) :
    (s.removeFeatureHolders tkey).featureHolders fid = s.featureHolders fid ∧
    ∀ k, maskedIn ((s.removeFeatureHolders tkey).tiles k) fid ↔
      maskedIn (s.tiles k) fid := by
  simp only [LodState.removeFeatureHolders, ht, hc]
  exact removeFold_frame tkey feats (s.featureHolders, s.tiles) fid hf

lemma removeFeatureHolders_mem_none {s : LodState} {tkey : Key} {tile : Tile}
    {feats : List Feature} (ht : s.tiles tkey = some tile)
    (hc : tile.featureCollection = some feats)
    (hnd : (feats.filterMap Feature.fid).Nodup) {fid : Nat}
    (hf : fid ∈ feats.filterMap Feature.fid)
    (hh : s.featureHolders fid = none) :
    (s.removeFeatureHolders tkey).featureHolders fid = none ∧
    ∀ k, maskedIn ((s.removeFeatureHolders tkey).tiles k) fid ↔
      maskedIn (s.tiles k) fid := by
  simp only [LodState.removeFeatureHolders, ht, hc]
  exact removeFold_mem_none tkey feats (s.featureHolders, s.tiles) fid hnd hf hh

lemma removeFeatureHolders_mem_some {s : LodState} {tkey : Key} {tile : Tile}
    {feats : List Feature} (ht : s.tiles tkey = some tile)
    (hc : tile.featureCollection = some feats)
    (hnd : (feats.filterMap Feature.fid).Nodup) {fid : Nat}
    (hf : fid ∈ feats.filterMap Feature.fid) {l0 : List Key}
    (hh : s.featureHolders fid = some l0) :
    (s.removeFeatureHolders tkey).featureHolders fid
      = some (l0.filter (fun k => decide (k ≠ tkey))) ∧
    ∀ k, maskedIn ((s.removeFeatureHolders tkey).tiles k) fid ↔
      removedMask tkey k l0 (maskedIn (s.tiles k) fid) := by
  simp only [LodState.removeFeatureHolders, ht, hc]
  exact removeFold_mem_some tkey feats (s.featureHolders, s.tiles) fid l0 hnd hf hh

end RemoveSpec

section ClearFold

lemma clearTileStep_frames (acc : LodState) (key : Key) :
    (clearTileStep acc key).metaTiles = acc.metaTiles ∧
    (clearTileStep acc key).activeTiles = acc.activeTiles ∧
    (clearTileStep acc key).featureHolders = acc.featureHolders ∧
    (clearTileStep acc key).currentView = acc.currentView := by
  rcases ht : acc.tiles key with _ | tile
  · simp [clearTileStep, ht]
  · simp only [clearTileStep, ht]
    split <;> exact ⟨rfl, rfl, rfl, rfl⟩

lemma clearTileStep_tshape (acc : LodState) (key k : Key) :
    tshape ((clearTileStep acc key).tiles k) = tshape (acc.tiles k) := by
  rcases ht : acc.tiles key with _ | tile
  · simp [clearTileStep, ht]
  · simp only [clearTileStep, ht]
    split
    · by_cases hk : k = key
      · subst hk
        simp [Function.update_same, ht, tshape, Tile.unmaskAll]
      · simp [Function.update_noteq hk]
    · rfl

lemma clearTileStep_mask_shrink (acc : LodState) (key k : Key) (fid : Nat) :
    maskedIn ((clearTileStep acc key).tiles k) fid → maskedIn (acc.tiles k) fid := by
  rcases ht : acc.tiles key with _ | tile
  · simp [clearTileStep, ht]
  · simp only [clearTileStep, ht]
    split
    · by_cases hk : k = key
      · subst hk
        simp [Function.update_same, maskedIn, Tile.unmaskAll]
      · simp [Function.update_noteq hk]
    · exact fun h => h

lemma clearFold_frames (l : List Key) :
    ∀ acc : LodState,
      (l.foldl clearTileStep acc).metaTiles = acc.metaTiles ∧
      (l.foldl clearTileStep acc).activeTiles = acc.activeTiles ∧
      (l.foldl clearTileStep acc).featureHolders = acc.featureHolders ∧
      (l.foldl clearTileStep acc).currentView = acc.currentView := by
  induction l with
  | nil => intro acc; exact ⟨rfl, rfl, rfl, rfl⟩
  | cons a rest ih =>
      intro acc
      rw [List.foldl_cons]
      rcases ih (clearTileStep acc a) with ⟨h1, h2, h3, h4⟩
      rcases clearTileStep_frames acc a with ⟨g1, g2, g3, g4⟩
      exact ⟨h1.trans g1, h2.trans g2, h3.trans g3, h4.trans g4⟩

lemma clearFold_tshape (l : List Key) :
    ∀ (acc : LodState) (k : Key),
      tshape ((l.foldl clearTileStep acc).tiles k) = tshape (acc.tiles k) := by
  induction l with
  | nil => intro acc k; rfl
  | cons a rest ih =>
      intro acc k
      rw [List.foldl_cons]
      exact (ih (clearTileStep acc a) k).trans (clearTileStep_tshape acc a k)

lemma clearFold_mask_shrink (l : List Key) :
    ∀ (acc : LodState) (k : Key) (fid : Nat),
      maskedIn ((l.foldl clearTileStep acc).tiles k) fid → maskedIn (acc.tiles k) fid := by
  induction l with
  | nil => intro acc k fid h; exact h
  | cons a rest ih =>
      intro acc k fid h
      rw [List.foldl_cons] at h
      exact clearTileStep_mask_shrink acc a k fid (ih (clearTileStep acc a) k fid h)

lemma clearFold_mask_cleared (l : List Key) :
    ∀ (acc : LodState) (k : Key) (fid : Nat), k ∈ l →
      (∃ t, acc.tiles k = some t ∧ t.fulfilled = true) →
      ¬ maskedIn ((l.foldl clearTileStep acc).tiles k) fid := by
  induction l with
  | nil => intro acc k fid h; simp at h
  | cons a rest ih =>
      intro acc k fid hk hful
      rw [List.foldl_cons]
      rcases hful with ⟨t, ht, hf⟩
      by_cases hka : k = a
      · subst hka
        intro hmask
        have hshrunk := clearFold_mask_shrink rest (clearTileStep acc k) k fid hmask
        revert hshrunk
        simp only [clearTileStep, ht, hf, if_pos rfl]
        simp [Function.update_same, maskedIn, Tile.unmaskAll]
      · rcases List.mem_cons.mp hk with h | h
        · exact absurd h hka
        · apply ih (clearTileStep acc a) k fid h
          rcases tshape_eq_elim (clearTileStep_tshape acc a k) with ⟨h1, h2⟩ | ⟨t1, t2, h1, h2, _, hfeq, _⟩
          · rw [ht] at h2; cases h2
          · rw [ht] at h2
            injection h2 with h2
            subst h2
            exact ⟨t1, h1, hfeq.trans hf⟩

lemma clearFold_layers (l : List Key) :
    ∀ acc : LodState,
      (∀ j, j ∈ acc.layers → j ∈ l ∧ ∃ t, acc.tiles j = some t ∧ t.fulfilled = true) →
      (l.foldl clearTileStep acc).layers = [] := by
  induction l with
  | nil =>
      intro acc h
      rcases hl : acc.layers with _ | ⟨j, rest⟩
      · exact hl
      · exfalso
        have := h j (by rw [hl]; exact List.mem_cons_self j rest)
        simp at this
  | cons a rest ih =>
      intro acc h
      rw [List.foldl_cons]
      apply ih
      intro j hj
      rcases ht : acc.tiles a with _ | tile
      · -- step is the identity
        have hj2 : j ∈ acc.layers := by
          simpa [clearTileStep, ht] using hj
        rcases h j hj2 with ⟨hmem, t, htj, hful⟩
        rcases List.mem_cons.mp hmem with rfl | hmem2
        · rw [ht] at htj; cases htj
        · exact ⟨hmem2, t, by simpa [clearTileStep, ht] using htj, hful⟩
      · by_cases hful : tile.fulfilled = true
        · have hj2 : j ∈ setRemove acc.layers a := by
            simpa [clearTileStep, ht, hful] using hj
          rcases mem_setRemove.mp hj2 with ⟨hj3, hja⟩
          rcases h j hj3 with ⟨hmem, t, htj, hfult⟩
          rcases List.mem_cons.mp hmem with rfl | hmem2
          · exact absurd rfl hja
          · refine ⟨hmem2, ?_⟩
            by_cases hjk : j = a
            · exact absurd hjk hja
            · refine ⟨t, ?_, hfult⟩
              simp only [clearTileStep, ht, if_pos hful]
              simpa [Function.update_noteq hjk] using htj
        · have hstep : clearTileStep acc a = acc := by
            simp only [clearTileStep, ht]
            rw [if_neg hful]
          rw [hstep] at hj
          rcases h j hj with ⟨hmem, t, htj, hfult⟩
          rcases List.mem_cons.mp hmem with rfl | hmem2
          · rw [ht] at htj
            injection htj with htj
            subst htj
            exact absurd hfult hful
          · rw [hstep]
            exact ⟨hmem2, t, htj, hfult⟩

end ClearFold

section InvHelpers

lemma isSome_of_tshape_eq {o1 o2 : Option Tile} (h : tshape o1 = tshape o2) :
    o1.isSome = o2.isSome := by
  rcases tshape_eq_elim h with ⟨h1, h2⟩ | ⟨t1, t2, h1, h2, _⟩ <;> simp [h1, h2]

lemma not_holder_of_not_visHolds {s : LodState} (hInv : StateInv s) {k : Key} {fid : Nat}
    (h : ¬ visHolds s k fid) : k ∉ holdersList s fid := by
  intro hk
  exact h ((hInv.holders_iff fid k).mp hk)

lemma not_visHolds_of_not_active {s : LodState} {k : Key} {fid : Nat}
    (h : k ∉ s.activeTiles) : ¬ visHolds s k fid := by
  intro hv
  exact h hv.1

lemma not_visHolds_of_not_fulfilled {s : LodState} {k : Key} {t : Tile} {fid : Nat}
    (ht : s.tiles k = some t) (hf : t.fulfilled = false) : ¬ visHolds s k fid := by
  rintro ⟨_, t2, ht2, hf2, _⟩
  rw [ht] at ht2
  injection ht2 with ht2
  subst ht2
  rw [hf] at hf2
  cases hf2

lemma no_mask_of_not_holder {s : LodState} (hInv : StateInv s) {k : Key} {t : Tile}
    {fid : Nat} (ht : s.tiles k = some t) (h : k ∉ holdersList s fid) :
    fid ∉ t.maskedFeatures := by
  intro hm
  exact h ((hInv.masked_iff fid k t ht).mp hm).1

lemma not_layer_of_not_fulfilled {s : LodState} (hInv : StateInv s) {k : Key} {t : Tile}
    (ht : s.tiles k = some t) (hf : t.fulfilled = false) : k ∉ s.layers := by
  intro hl
  rcases (hInv.layers_iff k).mp hl with ⟨_, t2, ht2, hf2⟩
  rw [ht] at ht2
  injection ht2 with ht2
  subst ht2
  rw [hf] at hf2
  cases hf2

lemma removedMask_of_not_orig {tkey k : Key} {l0 : List Key} {orig : Prop}
    (h : ¬ orig) : ¬ removedMask tkey k l0 orig := by
  unfold removedMask
  split
  · intro hc; exact h hc.2
  · split
    · exact fun hc => hc
    · exact h

lemma removedMask_masked_iff {tkey j : Key} {l0 : List Key}
    (hkey : tkey ∈ l0) :
    (removedMask tkey j l0 (j ∈ l0 ∧ l0.head? ≠ some j) ↔
      (j ∈ l0.filter (fun x => decide (x ≠ tkey)) ∧
       (l0.filter (fun x => decide (x ≠ tkey))).head? ≠ some j)) := by
  unfold removedMask
  by_cases hj : j = tkey
  · subst hj
    rw [if_pos rfl]
    constructor
    · rintro ⟨hh, _, hne⟩
      exact absurd hh hne
    · rintro ⟨hmem, _⟩
      rcases mem_filter_ne.mp hmem with ⟨_, hne⟩
      exact absurd rfl hne
  · rw [if_neg hj]
    by_cases hhead : l0.head? = some tkey
    · by_cases hnext : (l0.filter (fun x => decide (x ≠ tkey))).head? = some j
      · rw [if_pos ⟨hhead, hnext⟩]
        constructor
        · exact fun hc => hc.elim
        · rintro ⟨_, hne⟩
          exact hne hnext
      · rw [if_neg (fun hc => hnext hc.2)]
        constructor
        · rintro ⟨hmem, _⟩
          exact ⟨mem_filter_ne.mpr ⟨hmem, hj⟩, hnext⟩
        · rintro ⟨hmem, _⟩
          rcases mem_filter_ne.mp hmem with ⟨hmem2, _⟩
          refine ⟨hmem2, ?_⟩
          rw [hhead]
          intro hc
          injection hc with hc
          exact hj hc.symm
    · have hl0 : l0 ≠ [] := by
        intro hc
        rw [hc] at hkey
        simp at hkey
      rcases hh0 : l0.head? with _ | h0
      · exact absurd (List.head?_eq_none_iff.mp hh0) hl0
      · have hh0ne : h0 ≠ tkey := by
          intro hc
          rw [hc] at hh0
          exact hhead hh0
        have hfneq : (l0.filter (fun x => decide (x ≠ tkey))).head? = some h0 :=
          head?_filter_of_head_ne hh0 hh0ne
        have hcond : ¬ ((some h0 : Option Key) = some tkey ∧
            (l0.filter (fun x => decide (x ≠ tkey))).head? = some j) := by
          intro hc
          injection hc.1 with hc1
          exact hh0ne hc1
        rw [if_neg hcond, hfneq]
        constructor
        · rintro ⟨hmem, hne⟩
          exact ⟨mem_filter_ne.mpr ⟨hmem, hj⟩, hne⟩
        · rintro ⟨hmem, hne⟩
          exact ⟨(mem_filter_ne.mp hmem).1, hne⟩

lemma lodState_set_active_eq (X : LodState) {v : List Key} (h : v = X.activeTiles) :
    ({ X with activeTiles := v } : LodState) = X := by
  subst h
  rfl

lemma inv_init (meta : List Key) : StateInv (initState meta) := by
  refine ⟨?_, ?_, ?_, ?_, ?_, ?_, ?_, ?_, ?_⟩
  · intro k t h; cases h
  · intro k t h; cases h
  · intro k t h; cases h
  · intro k t h; cases h
  · intro k h; cases h
  · intro k
    constructor
    · intro h; cases h
    · rintro ⟨h, _⟩; cases h
  · intro fid
    simp [initState, holdersList]
  · intro fid k
    constructor
    · intro h
      simp [initState, holdersList] at h
    · rintro ⟨h, _⟩; cases h
  · intro fid k t h; cases h

lemma inv_loadTileStart {s : LodState} (hInv : StateInv s) (x y : Int) :
    StateInv (s.loadTileStart x y) := by
  set key := tileKey x y with hkeydef
  by_cases hm : key ∈ s.metaTiles
  · by_cases hex : (s.tiles key).isSome
    · have : s.loadTileStart x y = s := by
        simp only [LodState.loadTileStart]
        rw [← hkeydef, if_pos hm, if_pos hex]
      rw [this]
      exact hInv
    · have hnone : s.tiles key = none := by
        rcases h : s.tiles key with _ | t
        · rfl
        · rw [h] at hex; simp at hex
      have hkna : key ∉ s.activeTiles := by
        intro hk
        have := hInv.active_some key hk
        rw [hnone] at this
        cases this
      have hs' : s.loadTileStart x y =
          { s with tiles := Function.update s.tiles key (some (freshTile key)) } := by
        simp only [LodState.loadTileStart]
        rw [← hkeydef, if_pos hm, if_neg hex]
      rw [hs']
      have htiles : ∀ j t,
          Function.update s.tiles key (some (freshTile key)) j = some t →
          (j = key ∧ t = freshTile key) ∨ (j ≠ key ∧ s.tiles j = some t) := by
        intro j t hj
        by_cases hjk : j = key
        · subst hjk
          rw [Function.update_same] at hj
          injection hj with hj
          exact Or.inl ⟨rfl, hj.symm⟩
        · rw [Function.update_noteq hjk] at hj
          exact Or.inr ⟨hjk, hj⟩
      refine ⟨?_, ?_, ?_, ?_, ?_, ?_, ?_, ?_, ?_⟩
      · intro j t hj
        rcases htiles j t hj with ⟨rfl, rfl⟩ | ⟨_, hj2⟩
        · rfl
        · exact hInv.key_eq j t hj2
      · intro j t hj _
        rcases htiles j t hj with ⟨rfl, rfl⟩ | ⟨_, hj2⟩
        · rfl
        · exact hInv.fresh_coll j t hj2 (by assumption)
      · intro j t hj _
        rcases htiles j t hj with ⟨rfl, rfl⟩ | ⟨_, hj2⟩
        · intro fid h
          simp [freshTile] at h
        · exact hInv.fresh_mask j t hj2 (by assumption)
      · intro j t hj
        rcases htiles j t hj with ⟨rfl, rfl⟩ | ⟨_, hj2⟩
        · simp [Tile.fids, freshTile]
        · exact hInv.coll_nodup j t hj2
      · intro j hj
        dsimp only at hj ⊢
        by_cases hjk : j = key
        · subst hjk
          simp [Function.update_same]
        · rw [Function.update_noteq hjk]
          exact hInv.active_some j hj
      · intro j
        dsimp only
        rw [hInv.layers_iff j]
        by_cases hjk : j = key
        · subst hjk
          rw [Function.update_same]
          constructor
          · rintro ⟨hact, _⟩
            exact absurd hact hkna
          · rintro ⟨hact, _⟩
            exact absurd hact hkna
        · rw [Function.update_noteq hjk]
      · intro fid
        exact hInv.holders_nodup fid
      · intro fid j
        constructor
        · intro hmem
          have hmem2 : j ∈ holdersList s fid := hmem
          rcases (hInv.holders_iff fid j).mp hmem2 with ⟨hact, t, htj, hful, hfid⟩
          refine ⟨hact, t, ?_, hful, hfid⟩
          dsimp only
          have hjk : j ≠ key := by
            intro hc
            subst hc
            rw [hnone] at htj
            cases htj
          rw [Function.update_noteq hjk]
          exact htj
        · rintro ⟨hact, t, htj, hful, hfid⟩
          dsimp only at htj
          rcases htiles j t htj with ⟨rfl, rfl⟩ | ⟨hjk, htj2⟩
          · cases hful
          · exact (hInv.holders_iff fid j).mpr ⟨hact, t, htj2, hful, hfid⟩
      · intro fid j t hj
        rcases htiles j t hj with ⟨rfl, rfl⟩ | ⟨_, hj2⟩
        · constructor
          · intro h
            simp [freshTile] at h
          · rintro ⟨hmem, _⟩
            have := (hInv.holders_iff fid key).mp hmem
            exact absurd this.1 hkna
        · exact hInv.masked_iff fid j t hj2
  · have : s.loadTileStart x y = s := by
      simp only [LodState.loadTileStart]
      rw [← hkeydef, if_neg hm]
    rw [this]
    exact hInv

end InvHelpers

section InvRegister

lemma nodup_append_singleton {l : List Key} {a : Key} (h : l.Nodup) (ha : a ∉ l) :
    (l ++ [a]).Nodup := by
  simp [List.nodup_append, h, ha]

/-- Registering and rendering a fulfilled tile with a nonempty collection and
adding its key to the active set preserves the invariant, provided the key was
not yet registered anywhere and its masks start empty.  This covers both the
fulfilled branch of `showTile` and the still-active branch of the load
callback. -/
lemma inv_register {u : LodState} {k : Key} {tile : Tile} {feats : List Feature}
    (htile : u.tiles k = some tile)
    (hful : tile.fulfilled = true)
    (hcoll : tile.featureCollection = some feats)
    (hnd : (feats.filterMap Feature.fid).Nodup)
    (hmask0 : ∀ fid, fid ∉ tile.maskedFeatures)
    (hnoh : ∀ fid, k ∉ holdersList u fid)
    (hkey : tile.key = k)
    (hnl : k ∉ u.layers)
    (key_eq : ∀ j t, u.tiles j = some t → t.key = j)
    (fresh_coll : ∀ j t, u.tiles j = some t → t.fulfilled = false →
      t.featureCollection = none)
    (fresh_mask : ∀ j t, u.tiles j = some t → t.fulfilled = false →
      ∀ fid, fid ∉ t.maskedFeatures)
    (coll_nodup : ∀ j t, u.tiles j = some t → t.fids.Nodup)
    (active_some : ∀ j, j ∈ u.activeTiles → (u.tiles j).isSome = true)
    (layers_iff : ∀ j, j ≠ k → (j ∈ u.layers ↔
      (j ∈ u.activeTiles ∧ ∃ t, u.tiles j = some t ∧ t.fulfilled = true)))
    (holders_nodup : ∀ fid, (holdersList u fid).Nodup)
    (holders_iff : ∀ fid j, j ≠ k → (j ∈ holdersList u fid ↔ visHolds u j fid))
    (masked_iff : ∀ fid j t, u.tiles j = some t →
      (fid ∈ t.maskedFeatures ↔
        (j ∈ holdersList u fid ∧ (holdersList u fid).head? ≠ some j))) :
    StateInv { (u.addFeatureHolders k).addLayerTile k with
               activeTiles := setInsert u.activeTiles k } := by
  rcases addFeatureHolders_tile_self htile hcoll hnd with
    ⟨t2, ht2, ht2key, ht2ful, ht2coll, ht2mask⟩
  have ht2mask2 : ∀ fid, fid ∈ t2.maskedFeatures ↔
      (fid ∈ feats.filterMap Feature.fid ∧ holdersList u fid ≠ []) := by
    intro fid
    rw [ht2mask fid]
    constructor
    · rintro (hm | hm)
      · exact absurd hm (hmask0 fid)
      · exact hm
    · exact fun hm => Or.inr hm
  have ht2fids : t2.fids = feats.filterMap Feature.fid := by
    rw [tile_fids_of_coll (ht2coll.trans hcoll)]
  rcases @addFeatureHolders_frames u k with ⟨hfm, hfa, hfl, hfv⟩
  have htiles' : ∀ j, j ≠ k →
      ({ (u.addFeatureHolders k).addLayerTile k with
         activeTiles := setInsert u.activeTiles k } : LodState).tiles j = u.tiles j := by
    intro j hj
    exact addFeatureHolders_tiles_ne hj
  have htk : ({ (u.addFeatureHolders k).addLayerTile k with
      activeTiles := setInsert u.activeTiles k } : LodState).tiles k = some t2 := ht2
  have hlay : ({ (u.addFeatureHolders k).addLayerTile k with
      activeTiles := setInsert u.activeTiles k } : LodState).layers
      = setInsert u.layers k := by
    dsimp only [LodState.addLayerTile]
    rw [hfl]
  have hhold_mem : ∀ fid, fid ∈ feats.filterMap Feature.fid →
      holdersList { (u.addFeatureHolders k).addLayerTile k with
        activeTiles := setInsert u.activeTiles k } fid
      = holdersList u fid ++ [k] := by
    intro fid hf
    unfold holdersList
    dsimp only [LodState.addLayerTile]
    rw [addFeatureHolders_holders_mem htile hcoll hnd hf]
    rfl
  have hhold_not : ∀ fid, fid ∉ feats.filterMap Feature.fid →
      holdersList { (u.addFeatureHolders k).addLayerTile k with
        activeTiles := setInsert u.activeTiles k } fid
      = holdersList u fid := by
    intro fid hf
    unfold holdersList
    dsimp only [LodState.addLayerTile]
    rw [addFeatureHolders_holders_not_mem htile hcoll hf]
  refine ⟨?_, ?_, ?_, ?_, ?_, ?_, ?_, ?_, ?_⟩
  · -- key_eq
    intro j t hj
    by_cases hjk : j = k
    · subst hjk
      rw [htk] at hj
      injection hj with hj
      subst hj
      rw [ht2key, hkey]
    · rw [htiles' j hjk] at hj
      exact key_eq j t hj
  · -- fresh_coll
    intro j t hj hf
    by_cases hjk : j = k
    · subst hjk
      rw [htk] at hj
      injection hj with hj
      subst hj
      rw [ht2ful, hful] at hf
      cases hf
    · rw [htiles' j hjk] at hj
      exact fresh_coll j t hj hf
  · -- fresh_mask
    intro j t hj hf
    by_cases hjk : j = k
    · subst hjk
      rw [htk] at hj
      injection hj with hj
      subst hj
      rw [ht2ful, hful] at hf
      cases hf
    · rw [htiles' j hjk] at hj
      exact fresh_mask j t hj hf
  · -- coll_nodup
    intro j t hj
    by_cases hjk : j = k
    · subst hjk
      rw [htk] at hj
      injection hj with hj
      subst hj
      rw [ht2fids]
      exact hnd
    · rw [htiles' j hjk] at hj
      exact coll_nodup j t hj
  · -- active_some
    intro j hj
    by_cases hjk : j = k
    · subst hjk
      rw [htk]
      rfl
    · have hj2 : j ∈ u.activeTiles := by
        rcases mem_setInsert.mp hj with h | h
        · exact absurd h hjk
        · exact h
      rw [htiles' j hjk]
      exact active_some j hj2
  · -- layers_iff
    intro j
    rw [hlay]
    by_cases hjk : j = k
    · subst hjk
      constructor
      · intro _
        exact ⟨mem_setInsert.mpr (Or.inl rfl), t2, htk, ht2ful.trans hful⟩
      · intro _
        exact mem_setInsert.mpr (Or.inl rfl)
    · constructor
      · intro hj
        have hj2 : j ∈ u.layers := by
          rcases mem_setInsert.mp hj with h | h
          · exact absurd h hjk
          · exact h
        rcases (layers_iff j hjk).mp hj2 with ⟨hact, t, htj, hft⟩
        refine ⟨mem_setInsert.mpr (Or.inr hact), t, ?_, hft⟩
        rw [htiles' j hjk]
        exact htj
      · rintro ⟨hact, t, htj, hft⟩
        have hact2 : j ∈ u.activeTiles := by
          rcases mem_setInsert.mp hact with h | h
          · exact absurd h hjk
          · exact h
        rw [htiles' j hjk] at htj
        exact mem_setInsert.mpr (Or.inr ((layers_iff j hjk).mpr ⟨hact2, t, htj, hft⟩))
  · -- holders_nodup
    intro fid
    by_cases hf : fid ∈ feats.filterMap Feature.fid
    · rw [hhold_mem fid hf]
      exact nodup_append_singleton (holders_nodup fid) (hnoh fid)
    · rw [hhold_not fid hf]
      exact holders_nodup fid
  · -- holders_iff
    intro fid j
    by_cases hf : fid ∈ feats.filterMap Feature.fid
    · rw [hhold_mem fid hf]
      by_cases hjk : j = k
      · subst hjk
        constructor
        · intro _
          exact ⟨mem_setInsert.mpr (Or.inl rfl), t2, htk, ht2ful.trans hful,
            ht2fids ▸ hf⟩
        · intro _
          simp
      · constructor
        · intro hj
          have hj2 : j ∈ holdersList u fid := by
            rcases List.mem_append.mp hj with h | h
            · exact h
            · rcases List.mem_singleton.mp h with rfl
              exact absurd rfl hjk
          rcases (holders_iff fid j hjk).mp hj2 with ⟨hact, t, htj, hft, hfidt⟩
          refine ⟨mem_setInsert.mpr (Or.inr hact), t, ?_, hft, hfidt⟩
          rw [htiles' j hjk]
          exact htj
        · rintro ⟨hact, t, htj, hft, hfidt⟩
          have hact2 : j ∈ u.activeTiles := by
            rcases mem_setInsert.mp hact with h | h
            · exact absurd h hjk
            · exact h
          rw [htiles' j hjk] at htj
          exact List.mem_append.mpr
            (Or.inl ((holders_iff fid j hjk).mpr ⟨hact2, t, htj, hft, hfidt⟩))
    · rw [hhold_not fid hf]
      by_cases hjk : j = k
      · subst hjk
        constructor
        · intro hj
          exact absurd hj (hnoh fid)
        · rintro ⟨_, t, htj, _, hfidt⟩
          rw [htk] at htj
          injection htj with htj
          subst htj
          rw [ht2fids] at hfidt
          exact absurd hfidt hf
      · constructor
        · intro hj
          rcases (holders_iff fid j hjk).mp hj with ⟨hact, t, htj, hft, hfidt⟩
          refine ⟨mem_setInsert.mpr (Or.inr hact), t, ?_, hft, hfidt⟩
          rw [htiles' j hjk]
          exact htj
        · rintro ⟨hact, t, htj, hft, hfidt⟩
          have hact2 : j ∈ u.activeTiles := by
            rcases mem_setInsert.mp hact with h | h
            · exact absurd h hjk
            · exact h
          rw [htiles' j hjk] at htj
          exact (holders_iff fid j hjk).mpr ⟨hact2, t, htj, hft, hfidt⟩
  · -- masked_iff
    intro fid j t hj
    by_cases hjk : j = k
    · subst hjk
      rw [htk] at hj
      injection hj with hj
      subst hj
      rw [ht2mask2 fid]
      by_cases hf : fid ∈ feats.filterMap Feature.fid
      · rw [hhold_mem fid hf]
        simp only [hf, true_and]
        constructor
        · intro hne
          refine ⟨List.mem_append.mpr (Or.inr (List.mem_singleton.mpr rfl)), ?_⟩
          rw [head?_append_singleton]
          rcases hold : holdersList u fid with _ | ⟨h0, rest⟩
          · exact absurd hold hne
          · rw [if_neg (by simp)]
            simp only [List.head?_cons]
            intro hc
            injection hc with hc
            apply hnoh fid
            rw [hold, hc]
            exact List.mem_cons_self _ _
        · rintro ⟨_, hne⟩
          intro hnil
          rw [head?_append_singleton, if_pos hnil] at hne
          exact hne rfl
      · rw [hhold_not fid hf]
        constructor
        · rintro ⟨hc, _⟩
          exact absurd hc hf
        · rintro ⟨hc, _⟩
          exact absurd hc (hnoh fid)
    · rw [htiles' j hjk] at hj
      rw [masked_iff fid j t hj]
      by_cases hf : fid ∈ feats.filterMap Feature.fid
      · rw [hhold_mem fid hf]
        rcases hold : holdersList u fid with _ | ⟨h0, rest⟩
        · simp only [List.nil_append]
          constructor
          · rintro ⟨hc, _⟩
            cases hc
          · rintro ⟨hc, hne⟩
            rcases List.mem_singleton.mp hc with rfl
            exact absurd rfl hjk
        · constructor
          · rintro ⟨hc, hne⟩
            refine ⟨List.mem_append.mpr (Or.inl hc), ?_⟩
            rw [head?_append_singleton, if_neg (by simp)]
            exact hne
          · rintro ⟨hc, hne⟩
            rw [head?_append_singleton, if_neg (by simp)] at hne
            have hc2 : j ∈ h0 :: rest := by
              rcases List.mem_append.mp hc with h | h
              · exact h
              · rcases List.mem_singleton.mp h with rfl
                exact absurd rfl hjk
            exact ⟨hc2, hne⟩
      · rw [hhold_not fid hf]

end InvRegister

section InvShow

lemma setInsert_of_mem {α : Type} [DecidableEq α] {l : List α} {a : α} (h : a ∈ l) :
    setInsert l a = l := by
  simp [setInsert, h]

lemma loadTileStart_active (s : LodState) (x y : Int) :
    (s.loadTileStart x y).activeTiles = s.activeTiles := by
  simp only [LodState.loadTileStart]
  split
  · split <;> rfl
  · rfl

/-- Marking a not-yet-fulfilled tile active changes no other component and
preserves the invariant. -/
lemma inv_activate_unfulfilled {s : LodState} (hInv : StateInv s) {key : Key}
    {tile : Tile} (ht : s.tiles key = some tile) (hf : tile.fulfilled = false) :
    StateInv { s with activeTiles := setInsert s.activeTiles key } := by
  have hnoh : ∀ fid, key ∉ holdersList s fid := fun fid =>
    not_holder_of_not_visHolds hInv (not_visHolds_of_not_fulfilled ht hf)
  have hnl : key ∉ s.layers := not_layer_of_not_fulfilled hInv ht hf
  refine ⟨hInv.key_eq, hInv.fresh_coll, hInv.fresh_mask, hInv.coll_nodup, ?_, ?_, ?_, ?_, ?_⟩
  · intro j hj
    rcases mem_setInsert.mp hj with rfl | hj2
    · rw [ht]; rfl
    · exact hInv.active_some j hj2
  · intro j
    rw [hInv.layers_iff j]
    by_cases hjk : j = key
    · subst hjk
      constructor
      · rintro ⟨_, t2, ht2, hf2⟩
        rw [ht] at ht2
        injection ht2 with ht2
        subst ht2
        rw [hf] at hf2
        cases hf2
      · rintro ⟨_, t2, ht2, hf2⟩
        rw [ht] at ht2
        injection ht2 with ht2
        subst ht2
        rw [hf] at hf2
        cases hf2
    · constructor
      · rintro ⟨hact, hex⟩
        exact ⟨mem_setInsert.mpr (Or.inr hact), hex⟩
      · rintro ⟨hact, hex⟩
        rcases mem_setInsert.mp hact with rfl | hact2
        · exact absurd rfl hjk
        · exact ⟨hact2, hex⟩
  · exact hInv.holders_nodup
  · intro fid j
    constructor
    · intro hmem
      have hmem2 : j ∈ holdersList s fid := hmem
      rcases (hInv.holders_iff fid j).mp hmem2 with ⟨hact2, hex⟩
      exact ⟨mem_setInsert.mpr (Or.inr hact2), hex⟩
    · intro hv
      have hv2 : j ∈ setInsert s.activeTiles key ∧
          ∃ t, s.tiles j = some t ∧ t.fulfilled = true ∧ fid ∈ t.fids := hv
      rcases hv2 with ⟨hact2, t2, ht2, hf2, hfid⟩
      by_cases hjk : j = key
      · subst hjk
        rw [ht] at ht2
        injection ht2 with ht2
        subst ht2
        rw [hf] at hf2
        cases hf2
      · rcases mem_setInsert.mp hact2 with rfl | hact3
        · exact absurd rfl hjk
        · exact (hInv.holders_iff fid j).mpr ⟨hact3, t2, ht2, hf2, hfid⟩
  · exact hInv.masked_iff

/-- Rendering and activating a fulfilled tile with an absent collection:
no holder registration happens, the tile just joins the layer and active
sets. -/
lemma inv_activate_none_coll {s : LodState} (hInv : StateInv s) {key : Key}
    {tile : Tile} (ht : s.tiles key = some tile) (hf : tile.fulfilled = true)
    (hc : tile.featureCollection = none) :
    StateInv { s with layers := setInsert s.layers key,
                      activeTiles := setInsert s.activeTiles key } := by
  have hfids : tile.fids = [] := by
    simp [Tile.fids, hc]
  have hnoh : ∀ fid, key ∉ holdersList s fid := by
    intro fid
    apply not_holder_of_not_visHolds hInv
    rintro ⟨_, t2, ht2, _, hfid⟩
    rw [ht] at ht2
    injection ht2 with ht2
    subst ht2
    rw [hfids] at hfid
    cases hfid
  refine ⟨hInv.key_eq, hInv.fresh_coll, hInv.fresh_mask, hInv.coll_nodup, ?_, ?_, ?_, ?_, ?_⟩
  · intro j hj
    rcases mem_setInsert.mp hj with rfl | hj2
    · rw [ht]; rfl
    · exact hInv.active_some j hj2
  · intro j
    by_cases hjk : j = key
    · subst hjk
      constructor
      · intro _
        exact ⟨mem_setInsert.mpr (Or.inl rfl), tile, ht, hf⟩
      · intro _
        exact mem_setInsert.mpr (Or.inl rfl)
    · constructor
      · intro hj
        rcases mem_setInsert.mp hj with rfl | hj2
        · exact absurd rfl hjk
        · rcases (hInv.layers_iff j).mp hj2 with ⟨hact, hex⟩
          exact ⟨mem_setInsert.mpr (Or.inr hact), hex⟩
      · rintro ⟨hact, hex⟩
        rcases mem_setInsert.mp hact with rfl | hact2
        · exact absurd rfl hjk
        · exact mem_setInsert.mpr
            (Or.inr ((hInv.layers_iff j).mpr ⟨hact2, hex⟩))
  · exact hInv.holders_nodup
  · intro fid j
    constructor
    · intro hmem
      have hmem2 : j ∈ holdersList s fid := hmem
      rcases (hInv.holders_iff fid j).mp hmem2 with ⟨hact2, hex⟩
      exact ⟨mem_setInsert.mpr (Or.inr hact2), hex⟩
    · intro hv
      have hv2 : j ∈ setInsert s.activeTiles key ∧
          ∃ t, s.tiles j = some t ∧ t.fulfilled = true ∧ fid ∈ t.fids := hv
      rcases hv2 with ⟨hact2, t2, ht2, hf2, hfid⟩
      by_cases hjk : j = key
      · subst hjk
        rw [ht] at ht2
        injection ht2 with ht2
        subst ht2
        rw [hfids] at hfid
        cases hfid
      · rcases mem_setInsert.mp hact2 with rfl | hact3
        · exact absurd rfl hjk
        · exact (hInv.holders_iff fid j).mpr ⟨hact3, t2, ht2, hf2, hfid⟩
  · exact hInv.masked_iff

lemma inv_show {s : LodState} (hInv : StateInv s) (x y : Int)
    (hact : tileKey x y ∉ s.activeTiles) : StateInv (s.showTile x y) := by
  by_cases hm : tileKey x y ∈ s.metaTiles
  · simp only [LodState.showTile]
    rw [if_pos hm]
    by_cases hex : (s.tiles (tileKey x y)).isSome
    · rw [if_pos hex]
      rcases hts : s.tiles (tileKey x y) with _ | tile
      · exact hInv
      · dsimp only
        by_cases hful : tile.fulfilled = true
        · rw [hful, if_pos rfl]
          rcases hc : tile.featureCollection with _ | feats
          · rw [addFeatureHolders_none_coll hts hc]
            have hae : (s.addLayerTile (tileKey x y)).activeTiles = s.activeTiles := rfl
            rw [hae]
            exact inv_activate_none_coll hInv hts hful hc
          · have hnd : (feats.filterMap Feature.fid).Nodup := by
              have := hInv.coll_nodup (tileKey x y) tile hts
              rwa [tile_fids_of_coll hc] at this
            have hnoh : ∀ fid, tileKey x y ∉ holdersList s fid := fun fid =>
              not_holder_of_not_visHolds hInv (not_visHolds_of_not_active hact)
            have hae : ((s.addFeatureHolders (tileKey x y)).addLayerTile
                (tileKey x y)).activeTiles = s.activeTiles := by
              dsimp only [LodState.addLayerTile]
              exact (@addFeatureHolders_frames s (tileKey x y)).2.1
            rw [hae]
            refine inv_register hts hful hc hnd ?_ hnoh
              (hInv.key_eq _ _ hts) ?_ hInv.key_eq hInv.fresh_coll hInv.fresh_mask
              hInv.coll_nodup hInv.active_some (fun j _ => hInv.layers_iff j)
              hInv.holders_nodup (fun fid j _ => hInv.holders_iff fid j)
              hInv.masked_iff
            · exact fun fid => no_mask_of_not_holder hInv hts (hnoh fid)
            · intro hl
              rcases (hInv.layers_iff (tileKey x y)).mp hl with ⟨ha, _⟩
              exact hact ha
        · have hful2 : tile.fulfilled = false := by
            rcases hb : tile.fulfilled with _ | _
            · rfl
            · exact absurd hb hful
          rw [hful2, if_neg Bool.false_ne_true]
          exact inv_activate_unfulfilled hInv hts hful2
    · rw [if_neg hex]
      have hnone : s.tiles (tileKey x y) = none := by
        rcases h : s.tiles (tileKey x y) with _ | t
        · rfl
        · rw [h] at hex; simp at hex
      have hs1t : (s.loadTileStart x y).tiles (tileKey x y) = some (freshTile (tileKey x y)) := by
        simp only [LodState.loadTileStart]
        rw [if_pos hm, if_neg hex]
        exact Function.update_same _ _ _
      rw [hs1t]
      dsimp only
      have hful2 : (freshTile (tileKey x y)).fulfilled = false := rfl
      rw [hful2, if_neg Bool.false_ne_true]
      exact inv_activate_unfulfilled (inv_loadTileStart hInv x y) hs1t hful2
  · simp only [LodState.showTile]
    rw [if_neg hm]
    exact hInv

end InvShow

section InvLoad

lemma inv_load {s : LodState} (hInv : StateInv s) {k : Key} {t : Tile}
    {feats : List Feature} (ht : s.tiles k = some t) (hf : t.fulfilled = false)
    (hnd : (feats.filterMap Feature.fid).Nodup) :
    StateInv (s.loadComplete k feats) := by
  have hmask0 : ∀ fid, fid ∉ t.maskedFeatures := hInv.fresh_mask k t ht hf
  have hnohS : ∀ fid, k ∉ holdersList s fid := fun fid =>
    not_holder_of_not_visHolds hInv (not_visHolds_of_not_fulfilled ht hf)
  have hnlS : k ∉ s.layers := not_layer_of_not_fulfilled hInv ht hf
  have hkeyS : t.key = k := hInv.key_eq k t ht
  -- facts about the updated state
  have hu_key_eq : ∀ j t2,
      Function.update s.tiles k (some (loadedTile t feats)) j = some t2 → t2.key = j := by
    intro j t2 hj
    by_cases hjk : j = k
    · subst hjk
      rw [Function.update_same] at hj
      injection hj with hj
      subst hj
      exact hkeyS
    · rw [Function.update_noteq hjk] at hj
      exact hInv.key_eq j t2 hj
  have hu_fresh_coll : ∀ j t2,
      Function.update s.tiles k (some (loadedTile t feats)) j = some t2 → t2.fulfilled = false →
      t2.featureCollection = none := by
    intro j t2 hj hf2
    by_cases hjk : j = k
    · subst hjk
      rw [Function.update_same] at hj
      injection hj with hj
      subst hj
      cases hf2
    · rw [Function.update_noteq hjk] at hj
      exact hInv.fresh_coll j t2 hj hf2
  have hu_fresh_mask : ∀ j t2,
      Function.update s.tiles k (some (loadedTile t feats)) j = some t2 → t2.fulfilled = false →
      ∀ fid, fid ∉ t2.maskedFeatures := by
    intro j t2 hj hf2
    by_cases hjk : j = k
    · subst hjk
      rw [Function.update_same] at hj
      injection hj with hj
      subst hj
      cases hf2
    · rw [Function.update_noteq hjk] at hj
      exact hInv.fresh_mask j t2 hj hf2
  have hu_coll_nodup : ∀ j t2,
      Function.update s.tiles k (some (loadedTile t feats)) j = some t2 → t2.fids.Nodup := by
    intro j t2 hj
    by_cases hjk : j = k
    · subst hjk
      rw [Function.update_same] at hj
      injection hj with hj
      subst hj
      simpa [Tile.fids] using hnd
    · rw [Function.update_noteq hjk] at hj
      exact hInv.coll_nodup j t2 hj
  have hu_active_some : ∀ j, j ∈ s.activeTiles →
      (Function.update s.tiles k (some (loadedTile t feats)) j).isSome = true := by
    intro j hj
    by_cases hjk : j = k
    · subst hjk
      rw [Function.update_same]
      rfl
    · rw [Function.update_noteq hjk]
      exact hInv.active_some j hj
  have hu_layers_iff : ∀ j, j ≠ k → (j ∈ s.layers ↔
      (j ∈ s.activeTiles ∧ ∃ t2,
        Function.update s.tiles k (some (loadedTile t feats)) j = some t2 ∧ t2.fulfilled = true)) := by
    intro j hjk
    rw [Function.update_noteq hjk]
    exact hInv.layers_iff j
  have hu_holders_iff : ∀ fid j, j ≠ k → (j ∈ holdersList s fid ↔
      (j ∈ s.activeTiles ∧ ∃ t2,
        Function.update s.tiles k (some (loadedTile t feats)) j = some t2 ∧ t2.fulfilled = true ∧ fid ∈ t2.fids)) := by
    intro fid j hjk
    rw [Function.update_noteq hjk]
    exact hInv.holders_iff fid j
  have hu_masked_iff : ∀ fid j t2,
      Function.update s.tiles k (some (loadedTile t feats)) j = some t2 →
      (fid ∈ t2.maskedFeatures ↔
        (j ∈ holdersList s fid ∧ (holdersList s fid).head? ≠ some j)) := by
    intro fid j t2 hj
    by_cases hjk : j = k
    · subst hjk
      rw [Function.update_same] at hj
      injection hj with hj
      subst hj
      constructor
      · intro hm
        exact absurd hm (hmask0 fid)
      · rintro ⟨hm, _⟩
        exact absurd hm (hnohS fid)
    · rw [Function.update_noteq hjk] at hj
      exact hInv.masked_iff fid j t2 hj
  simp only [LodState.loadComplete]
  rw [ht]
  dsimp only
  by_cases hk : k ∈ s.activeTiles
  · rw [if_pos hk]
    have hreg := @inv_register
      { s with tiles := Function.update s.tiles k (some (loadedTile t feats)) }
      k (loadedTile t feats) feats
      (Function.update_same _ _ _) rfl rfl hnd hmask0 hnohS hkeyS hnlS
      hu_key_eq hu_fresh_coll hu_fresh_mask hu_coll_nodup hu_active_some
      hu_layers_iff hInv.holders_nodup hu_holders_iff hu_masked_iff
    rw [setInsert_of_mem hk] at hreg
    dsimp only at hreg
    have hX : s.activeTiles =
        ((({ s with tiles := Function.update s.tiles k (some (loadedTile t feats)) }
          : LodState).addFeatureHolders k).addLayerTile k).activeTiles := by
      dsimp only [LodState.addLayerTile]
      exact ((@addFeatureHolders_frames
        { s with tiles := Function.update s.tiles k (some (loadedTile t feats)) }
        k).2.1).symm
    rw [lodState_set_active_eq _ hX] at hreg
    exact hreg
  · rw [if_neg hk]
    refine ⟨hu_key_eq, hu_fresh_coll, hu_fresh_mask, hu_coll_nodup, hu_active_some, ?_, hInv.holders_nodup, ?_, hu_masked_iff⟩
    · intro j
      by_cases hjk : j = k
      · subst hjk
        constructor
        · intro hj
          exact absurd hj hnlS
        · rintro ⟨hact, _⟩
          exact absurd hact hk
      · exact hu_layers_iff j hjk
    · intro fid j
      by_cases hjk : j = k
      · subst hjk
        constructor
        · intro hj
          exact absurd hj (hnohS fid)
        · rintro ⟨hact, _⟩
          exact absurd hact hk
      · exact hu_holders_iff fid j hjk

end InvLoad

section InvHide

lemma fids_congr {t t2 : Tile} (h : t.featureCollection = t2.featureCollection) :
    t.fids = t2.fids := by
  unfold Tile.fids
  rw [h]

lemma inv_deactivate_unfulfilled {s : LodState} (hInv : StateInv s) {key : Key}
    {tile : Tile} (ht : s.tiles key = some tile) (hf : tile.fulfilled = false) :
    StateInv { s with activeTiles := setRemove s.activeTiles key } := by
  have hnoh : ∀ fid, key ∉ holdersList s fid := fun fid =>
    not_holder_of_not_visHolds hInv (not_visHolds_of_not_fulfilled ht hf)
  have hnl : key ∉ s.layers := not_layer_of_not_fulfilled hInv ht hf
  refine ⟨hInv.key_eq, hInv.fresh_coll, hInv.fresh_mask, hInv.coll_nodup, ?_, ?_,
    hInv.holders_nodup, ?_, hInv.masked_iff⟩
  · intro j hj
    exact hInv.active_some j (mem_setRemove.mp hj).1
  · intro j
    by_cases hjk : j = key
    · subst hjk
      constructor
      · intro hj
        exact absurd hj hnl
      · rintro ⟨hact, _⟩
        exact absurd rfl (mem_setRemove.mp hact).2
    · rw [hInv.layers_iff j]
      constructor
      · rintro ⟨hact, hex⟩
        exact ⟨mem_setRemove.mpr ⟨hact, hjk⟩, hex⟩
      · rintro ⟨hact, hex⟩
        exact ⟨(mem_setRemove.mp hact).1, hex⟩
  · intro fid j
    by_cases hjk : j = key
    · subst hjk
      constructor
      · intro hj
        exact absurd hj (hnoh fid)
      · intro hv
        have hv2 : j ∈ setRemove s.activeTiles j ∧
            ∃ t2, s.tiles j = some t2 ∧ t2.fulfilled = true ∧ fid ∈ t2.fids := hv
        exact absurd rfl (mem_setRemove.mp hv2.1).2
    · constructor
      · intro hj
        have hj2 : j ∈ holdersList s fid := hj
        rcases (hInv.holders_iff fid j).mp hj2 with ⟨hact, hex⟩
        exact ⟨mem_setRemove.mpr ⟨hact, hjk⟩, hex⟩
      · intro hv
        have hv2 : j ∈ setRemove s.activeTiles key ∧
            ∃ t2, s.tiles j = some t2 ∧ t2.fulfilled = true ∧ fid ∈ t2.fids := hv
        exact (hInv.holders_iff fid j).mpr ⟨(mem_setRemove.mp hv2.1).1, hv2.2⟩

lemma inv_deactivate_none_coll {s : LodState} (hInv : StateInv s) {key : Key}
    {tile : Tile} (ht : s.tiles key = some tile) (hc : tile.featureCollection = none) :
    StateInv { s with layers := setRemove s.layers key,
                      activeTiles := setRemove s.activeTiles key } := by
  have hfids : tile.fids = [] := by
    simp [Tile.fids, hc]
  have hnoh : ∀ fid, key ∉ holdersList s fid := by
    intro fid
    apply not_holder_of_not_visHolds hInv
    rintro ⟨_, t2, ht2, _, hfid⟩
    rw [ht] at ht2
    injection ht2 with ht2
    subst ht2
    rw [hfids] at hfid
    cases hfid
  refine ⟨hInv.key_eq, hInv.fresh_coll, hInv.fresh_mask, hInv.coll_nodup, ?_, ?_,
    hInv.holders_nodup, ?_, hInv.masked_iff⟩
  · intro j hj
    exact hInv.active_some j (mem_setRemove.mp hj).1
  · intro j
    by_cases hjk : j = key
    · subst hjk
      constructor
      · intro hj
        exact absurd rfl (mem_setRemove.mp hj).2
      · rintro ⟨hact, _⟩
        exact absurd rfl (mem_setRemove.mp hact).2
    · constructor
      · intro hj
        rcases (hInv.layers_iff j).mp (mem_setRemove.mp hj).1 with ⟨hact, hex⟩
        exact ⟨mem_setRemove.mpr ⟨hact, hjk⟩, hex⟩
      · rintro ⟨hact, hex⟩
        exact mem_setRemove.mpr
          ⟨(hInv.layers_iff j).mpr ⟨(mem_setRemove.mp hact).1, hex⟩, hjk⟩
  · intro fid j
    by_cases hjk : j = key
    · subst hjk
      constructor
      · intro hj
        exact absurd hj (hnoh fid)
      · intro hv
        have hv2 : j ∈ setRemove s.activeTiles j ∧
            ∃ t2, s.tiles j = some t2 ∧ t2.fulfilled = true ∧ fid ∈ t2.fids := hv
        exact absurd rfl (mem_setRemove.mp hv2.1).2
    · constructor
      · intro hj
        have hj2 : j ∈ holdersList s fid := hj
        rcases (hInv.holders_iff fid j).mp hj2 with ⟨hact, hex⟩
        exact ⟨mem_setRemove.mpr ⟨hact, hjk⟩, hex⟩
      · intro hv
        have hv2 : j ∈ setRemove s.activeTiles key ∧
            ∃ t2, s.tiles j = some t2 ∧ t2.fulfilled = true ∧ fid ∈ t2.fids := hv
        exact (hInv.holders_iff fid j).mpr ⟨(mem_setRemove.mp hv2.1).1, hv2.2⟩

/-- The fulfilled, nonempty-collection case of hiding: removing the tile from
the layer group, removing its feature holders, and dropping it from the
active-tile set preserves the invariant. -/
lemma inv_hide_fulfilled {s : LodState} (hInv : StateInv s) {key : Key}
    {tile : Tile} {feats : List Feature} (hk : key ∈ s.activeTiles)
    (hts : s.tiles key = some tile) (hful : tile.fulfilled = true)
    (hc : tile.featureCollection = some feats) :
    StateInv { (s.removeLayerTile key).removeFeatureHolders key with
               activeTiles := setRemove s.activeTiles key } := by
  have hnd : (feats.filterMap Feature.fid).Nodup := by
    have := hInv.coll_nodup key tile hts
    rwa [tile_fids_of_coll hc] at this
  have htsu : (s.removeLayerTile key).tiles key = some tile := hts
  have hfidsF : tile.fids = feats.filterMap Feature.fid := tile_fids_of_coll hc
  -- the registry entry of every fid carried by the tile
  have hentry : ∀ fid, fid ∈ feats.filterMap Feature.fid →
      ∃ l0, s.featureHolders fid = some l0 ∧ key ∈ l0 := by
    intro fid hf
    have hkh : key ∈ holdersList s fid :=
      (hInv.holders_iff fid key).mpr ⟨hk, tile, hts, hful, by rw [hfidsF]; exact hf⟩
    rcases hh : s.featureHolders fid with _ | l0
    · rw [holdersList, hh] at hkh
      simp at hkh
    · refine ⟨l0, rfl, ?_⟩
      rwa [holdersList, hh] at hkh
  rcases @removeFeatureHolders_frames (s.removeLayerTile key) key with ⟨hfm, hfa, hfl, hfv⟩
  have hshape : ∀ j, tshape (((s.removeLayerTile key).removeFeatureHolders key).tiles j)
      = tshape (s.tiles j) := fun j => removeFeatureHolders_tshape j
  -- characterization of the final registry and masks at each fid
  have hchar : ∀ fid,
      (fid ∈ feats.filterMap Feature.fid →
        ∃ l0, s.featureHolders fid = some l0 ∧ key ∈ l0 ∧
          ((s.removeLayerTile key).removeFeatureHolders key).featureHolders fid
            = some (l0.filter (fun j => decide (j ≠ key))) ∧
          ∀ j, maskedIn (((s.removeLayerTile key).removeFeatureHolders key).tiles j) fid ↔
            removedMask key j l0 (maskedIn (s.tiles j) fid)) ∧
      (fid ∉ feats.filterMap Feature.fid →
        ((s.removeLayerTile key).removeFeatureHolders key).featureHolders fid
            = s.featureHolders fid ∧
          ∀ j, maskedIn (((s.removeLayerTile key).removeFeatureHolders key).tiles j) fid ↔
            maskedIn (s.tiles j) fid) := by
    intro fid
    constructor
    · intro hf
      rcases hentry fid hf with ⟨l0, hh, hkl⟩
      rcases removeFeatureHolders_mem_some htsu hc hnd hf hh with ⟨h1, h2⟩
      exact ⟨l0, hh, hkl, h1, h2⟩
    · intro hf
      exact removeFeatureHolders_not_mem htsu hc hf
  refine ⟨?_, ?_, ?_, ?_, ?_, ?_, ?_, ?_, ?_⟩
  · -- key_eq
    intro j t2 hj
    rcases tshape_eq_elim (hshape j) with ⟨h1, _⟩ | ⟨t1, t2b, h1, h2, hkey2, _, _⟩
    · rw [hj] at h1; cases h1
    · rw [hj] at h1
      injection h1 with h1
      subst h1
      rw [hkey2]
      exact hInv.key_eq j t2b h2
  · -- fresh_coll
    intro j t2 hj hf2
    rcases tshape_eq_elim (hshape j) with ⟨h1, _⟩ | ⟨t1, t2b, h1, h2, _, hfeq, hceq⟩
    · rw [hj] at h1; cases h1
    · rw [hj] at h1
      injection h1 with h1
      subst h1
      rw [hceq]
      exact hInv.fresh_coll j t2b h2 (hfeq.symm.trans hf2)
  · -- fresh_mask
    intro j t2 hj hf2 fid
    intro hmem
    have hmask : maskedIn (((s.removeLayerTile key).removeFeatureHolders key).tiles j) fid := by
      rw [hj]
      exact hmem
    rcases tshape_eq_elim (hshape j) with ⟨h1, _⟩ | ⟨t1, t2b, h1, h2, _, hfeq, _⟩
    · rw [hj] at h1; cases h1
    · rw [hj] at h1
      injection h1 with h1
      subst h1
      have horig : ¬ maskedIn (s.tiles j) fid := by
        rw [h2]
        exact hInv.fresh_mask j t2b h2 (hfeq.symm.trans hf2) fid
      by_cases hf : fid ∈ feats.filterMap Feature.fid
      · rcases (hchar fid).1 hf with ⟨l0, _, _, _, hmk⟩
        rw [hmk j] at hmask
        exact removedMask_of_not_orig horig hmask
      · rw [((hchar fid).2 hf).2 j] at hmask
        exact horig hmask
  · -- coll_nodup
    intro j t2 hj
    rcases tshape_eq_elim (hshape j) with ⟨h1, _⟩ | ⟨t1, t2b, h1, h2, _, _, hceq⟩
    · rw [hj] at h1; cases h1
    · rw [hj] at h1
      injection h1 with h1
      subst h1
      rw [fids_congr hceq]
      exact hInv.coll_nodup j t2b h2
  · -- active_some
    intro j hj
    have hj2 : j ∈ s.activeTiles := (mem_setRemove.mp hj).1
    have := hInv.active_some j hj2
    rw [← isSome_of_tshape_eq (hshape j)] at this
    exact this
  · -- layers_iff
    intro j
    have hlay : ((s.removeLayerTile key).removeFeatureHolders key).layers
        = setRemove s.layers key := hfl
    rw [hlay]
    by_cases hjk : j = key
    · subst hjk
      constructor
      · intro hj
        exact absurd rfl (mem_setRemove.mp hj).2
      · rintro ⟨hact, _⟩
        exact absurd rfl (mem_setRemove.mp hact).2
    · constructor
      · intro hj
        rcases (hInv.layers_iff j).mp (mem_setRemove.mp hj).1 with ⟨hact, t2b, h2, hfb⟩
        refine ⟨mem_setRemove.mpr ⟨hact, hjk⟩, ?_⟩
        rcases tshape_eq_elim (hshape j) with ⟨h1, h1b⟩ | ⟨t1, t2c, h1, h2c, _, hfeq, _⟩
        · rw [h2] at h1b; cases h1b
        · rw [h2] at h2c
          injection h2c with h2c
          subst h2c
          exact ⟨t1, h1, hfeq.trans hfb⟩
      · rintro ⟨hact, t1, h1, hfb⟩
        rcases tshape_eq_elim (hshape j) with ⟨h1b, _⟩ | ⟨t1b, t2c, h1b, h2c, _, hfeq, _⟩
        · rw [h1] at h1b; cases h1b
        · rw [h1] at h1b
          injection h1b with h1b
          subst h1b
          refine mem_setRemove.mpr
            ⟨(hInv.layers_iff j).mpr ⟨(mem_setRemove.mp hact).1, t2c, h2c, hfeq.symm.trans hfb⟩, hjk⟩
  · -- holders_nodup
    intro fid
    by_cases hf : fid ∈ feats.filterMap Feature.fid
    · rcases (hchar fid).1 hf with ⟨l0, hh, _, h1, _⟩
      unfold holdersList
      rw [h1]
      have := hInv.holders_nodup fid
      rw [holdersList, hh] at this
      exact List.Nodup.filter _ this
    · unfold holdersList
      rw [((hchar fid).2 hf).1]
      exact hInv.holders_nodup fid
  · -- holders_iff
    intro fid j
    by_cases hf : fid ∈ feats.filterMap Feature.fid
    · rcases (hchar fid).1 hf with ⟨l0, hh, hkl, h1, _⟩
      have hl : holdersList { (s.removeLayerTile key).removeFeatureHolders key with
          activeTiles := setRemove s.activeTiles key } fid
          = l0.filter (fun j => decide (j ≠ key)) := by
        unfold holdersList
        rw [h1]
        rfl
      rw [hl]
      by_cases hjk : j = key
      · subst hjk
        constructor
        · intro hmem
          exact absurd rfl (mem_filter_ne.mp hmem).2
        · intro hv
          have hv2 : j ∈ setRemove s.activeTiles j ∧
              ∃ t2, ((s.removeLayerTile j).removeFeatureHolders j).tiles j = some t2 ∧
                t2.fulfilled = true ∧ fid ∈ t2.fids := hv
          exact absurd rfl (mem_setRemove.mp hv2.1).2
      · constructor
        · intro hmem
          have hmem2 : j ∈ holdersList s fid := by
            rw [holdersList, hh]
            exact (mem_filter_ne.mp hmem).1
          rcases (hInv.holders_iff fid j).mp hmem2 with ⟨hact, t2b, h2, hfb, hfidb⟩
          refine ⟨mem_setRemove.mpr ⟨hact, hjk⟩, ?_⟩
          rcases tshape_eq_elim (hshape j) with ⟨h1c, h1b⟩ | ⟨t1, t2c, h1c, h2c, _, hfeq, hceq⟩
          · rw [h2] at h1b; cases h1b
          · rw [h2] at h2c
            injection h2c with h2c
            subst h2c
            exact ⟨t1, h1c, hfeq.trans hfb, by rw [fids_congr hceq]; exact hfidb⟩
        · intro hv
          have hv2 : j ∈ setRemove s.activeTiles key ∧
              ∃ t2, ((s.removeLayerTile key).removeFeatureHolders key).tiles j = some t2 ∧
                t2.fulfilled = true ∧ fid ∈ t2.fids := hv
          rcases hv2 with ⟨hact, t1, h1c, hfb, hfidb⟩
          rcases tshape_eq_elim (hshape j) with ⟨h1b, _⟩ | ⟨t1b, t2c, h1b, h2c, _, hfeq, hceq⟩
          · rw [h1c] at h1b; cases h1b
          · rw [h1c] at h1b
            injection h1b with h1b
            subst h1b
            have hmem2 : j ∈ holdersList s fid :=
              (hInv.holders_iff fid j).mpr ⟨(mem_setRemove.mp hact).1, t2c, h2c,
                hfeq.symm.trans hfb, by rw [← fids_congr hceq]; exact hfidb⟩
            rw [holdersList, hh] at hmem2
            exact mem_filter_ne.mpr ⟨hmem2, hjk⟩
    · have hl : holdersList { (s.removeLayerTile key).removeFeatureHolders key with
          activeTiles := setRemove s.activeTiles key } fid = holdersList s fid := by
        unfold holdersList
        rw [((hchar fid).2 hf).1]
      rw [hl]
      by_cases hjk : j = key
      · subst hjk
        constructor
        · intro hmem
          rcases (hInv.holders_iff fid j).mp hmem with ⟨_, t2b, h2, _, hfidb⟩
          rw [hts] at h2
          injection h2 with h2
          subst h2
          rw [hfidsF] at hfidb
          exact absurd hfidb hf
        · intro hv
          have hv2 : j ∈ setRemove s.activeTiles j ∧
              ∃ t2, ((s.removeLayerTile j).removeFeatureHolders j).tiles j = some t2 ∧
                t2.fulfilled = true ∧ fid ∈ t2.fids := hv
          exact absurd rfl (mem_setRemove.mp hv2.1).2
      · constructor
        · intro hmem
          rcases (hInv.holders_iff fid j).mp hmem with ⟨hact, t2b, h2, hfb, hfidb⟩
          refine ⟨mem_setRemove.mpr ⟨hact, hjk⟩, ?_⟩
          rcases tshape_eq_elim (hshape j) with ⟨h1c, h1b⟩ | ⟨t1, t2c, h1c, h2c, _, hfeq, hceq⟩
          · rw [h2] at h1b; cases h1b
          · rw [h2] at h2c
            injection h2c with h2c
            subst h2c
            exact ⟨t1, h1c, hfeq.trans hfb, by rw [fids_congr hceq]; exact hfidb⟩
        · intro hv
          have hv2 : j ∈ setRemove s.activeTiles key ∧
              ∃ t2, ((s.removeLayerTile key).removeFeatureHolders key).tiles j = some t2 ∧
                t2.fulfilled = true ∧ fid ∈ t2.fids := hv
          rcases hv2 with ⟨hact, t1, h1c, hfb, hfidb⟩
          rcases tshape_eq_elim (hshape j) with ⟨h1b, _⟩ | ⟨t1b, t2c, h1b, h2c, _, hfeq, hceq⟩
          · rw [h1c] at h1b; cases h1b
          · rw [h1c] at h1b
            injection h1b with h1b
            subst h1b
            exact (hInv.holders_iff fid j).mpr ⟨(mem_setRemove.mp hact).1, t2c, h2c,
              hfeq.symm.trans hfb, by rw [← fids_congr hceq]; exact hfidb⟩
  · -- masked_iff
    intro fid j t2 hj
    have hmask_j : fid ∈ t2.maskedFeatures ↔
        maskedIn (((s.removeLayerTile key).removeFeatureHolders key).tiles j) fid := by
      rw [hj]
      exact Iff.rfl
    rcases tshape_eq_elim (hshape j) with ⟨h1, _⟩ | ⟨t1, t2b, h1, h2, _, _, _⟩
    · rw [hj] at h1; cases h1
    · rw [hj] at h1
      injection h1 with h1
      subst h1
      by_cases hf : fid ∈ feats.filterMap Feature.fid
      · rcases (hchar fid).1 hf with ⟨l0, hh, hkl, hhold, hmk⟩
        have hl : holdersList { (s.removeLayerTile key).removeFeatureHolders key with
            activeTiles := setRemove s.activeTiles key } fid
            = l0.filter (fun i => decide (i ≠ key)) := by
          unfold holdersList
          rw [hhold]
          rfl
        rw [hmask_j, hmk j, hl]
        have horig : maskedIn (s.tiles j) fid ↔ (j ∈ l0 ∧ l0.head? ≠ some j) := by
          rw [h2]
          have := hInv.masked_iff fid j t2b h2
          rw [holdersList, hh] at this
          exact this
        rw [removedMask_congr horig]
        exact removedMask_masked_iff hkl
      · have hl : holdersList { (s.removeLayerTile key).removeFeatureHolders key with
            activeTiles := setRemove s.activeTiles key } fid = holdersList s fid := by
          unfold holdersList
          rw [((hchar fid).2 hf).1]
        rw [hmask_j, ((hchar fid).2 hf).2 j, hl, h2]
        exact hInv.masked_iff fid j t2b h2

lemma inv_hide {s : LodState} (hInv : StateInv s) (x y : Int) :
    StateInv (s.hideTile x y) := by
  simp only [LodState.hideTile]
  by_cases hk : tileKey x y ∈ s.activeTiles
  · rw [if_pos hk]
    rcases hts : s.tiles (tileKey x y) with _ | tile
    · exfalso
      have := hInv.active_some (tileKey x y) hk
      rw [hts] at this
      cases this
    · dsimp only
      by_cases hful : tile.fulfilled = true
      · rw [hful, if_pos rfl]
        rcases hc : tile.featureCollection with _ | feats
        · rw [@removeFeatureHolders_none_coll
              (s.removeLayerTile (tileKey x y)) (tileKey x y) tile hts hc]
          exact inv_deactivate_none_coll hInv hts hc
        · have hae : ((s.removeLayerTile (tileKey x y)).removeFeatureHolders
              (tileKey x y)).activeTiles = s.activeTiles :=
            (@removeFeatureHolders_frames (s.removeLayerTile (tileKey x y))
              (tileKey x y)).2.1
          rw [hae]
          exact inv_hide_fulfilled hInv hk hts hful hc
      · have hful2 : tile.fulfilled = false := by
          rcases hb : tile.fulfilled with _ | _
          · rfl
          · exact absurd hb hful
        rw [hful2, if_neg Bool.false_ne_true]
        exact inv_deactivate_unfulfilled hInv hts hful2
  · rw [if_neg hk]
    exact hInv

end InvHide

section InvClear

lemma inv_clear {s : LodState} (hInv : StateInv s) : StateInv s.clearActive := by
  have hsh : ∀ k, tshape ((s.activeTiles.foldl clearTileStep s).tiles k)
      = tshape (s.tiles k) := fun k => clearFold_tshape s.activeTiles s k
  have hlayers : (s.activeTiles.foldl clearTileStep s).layers = [] := by
    apply clearFold_layers
    intro j hj
    exact (hInv.layers_iff j).mp hj
  have hnomask : ∀ fid k, ¬ maskedIn ((s.activeTiles.foldl clearTileStep s).tiles k) fid := by
    intro fid k hmask
    have horig := clearFold_mask_shrink s.activeTiles s k fid hmask
    rcases horigt : s.tiles k with _ | t
    · rw [horigt] at horig
      exact horig
    · rw [horigt] at horig
      have hmem : fid ∈ t.maskedFeatures := horig
      rcases (hInv.masked_iff fid k t horigt).mp hmem with ⟨hmemh, _⟩
      rcases (hInv.holders_iff fid k).mp hmemh with ⟨hact, t2, ht2, hf2, _⟩
      exact clearFold_mask_cleared s.activeTiles s k fid hact ⟨t2, ht2, hf2⟩ hmask
  simp only [LodState.clearActive]
  refine ⟨?_, ?_, ?_, ?_, ?_, ?_, ?_, ?_, ?_⟩
  · intro j t hj
    rcases tshape_eq_elim (hsh j) with ⟨h1, _⟩ | ⟨t1, t2, h1, h2, hkeq, _, _⟩
    · rw [hj] at h1; cases h1
    · rw [hj] at h1
      injection h1 with h1
      subst h1
      rw [hkeq]
      exact hInv.key_eq j t2 h2
  · intro j t hj hf
    rcases tshape_eq_elim (hsh j) with ⟨h1, _⟩ | ⟨t1, t2, h1, h2, _, hfeq, hceq⟩
    · rw [hj] at h1; cases h1
    · rw [hj] at h1
      injection h1 with h1
      subst h1
      rw [hceq]
      exact hInv.fresh_coll j t2 h2 (hfeq.symm.trans hf)
  · intro j t hj _ fid hmem
    apply hnomask fid j
    rw [hj]
    exact hmem
  · intro j t hj
    rcases tshape_eq_elim (hsh j) with ⟨h1, _⟩ | ⟨t1, t2, h1, h2, _, _, hceq⟩
    · rw [hj] at h1; cases h1
    · rw [hj] at h1
      injection h1 with h1
      subst h1
      rw [fids_congr hceq]
      exact hInv.coll_nodup j t2 h2
  · intro j hj
    cases hj
  · intro j
    rw [hlayers]
    constructor
    · intro hj
      cases hj
    · rintro ⟨hact, _⟩
      cases hact
  · intro fid
    simp [holdersList]
  · intro fid j
    constructor
    · intro hj
      have hj2 : j ∈ ((none : Option (List Key)).getD []) := hj
      cases hj2
    · rintro ⟨hact, _⟩
      cases hact
  · intro fid j t hj
    constructor
    · intro hmem
      exact absurd (by rw [hj]; exact hmem : maskedIn
        ((s.activeTiles.foldl clearTileStep s).tiles j) fid) (hnomask fid j)
    · rintro ⟨hmemh, _⟩
      have hj2 : j ∈ ((none : Option (List Key)).getD []) := hmemh
      cases hj2

end InvClear

section InvMain

/-- Every transition of the LOD scheduler preserves the invariant. -/
lemma inv_step {s s2 : LodState} (hInv : StateInv s) (h : LodStep s s2) :
    StateInv s2 := by
  cases h with
  | showStep x y hact => exact inv_show hInv x y hact
  | hideStep x y => exact inv_hide hInv x y
  | loadStep k t feats ht hf hnd => exact inv_load hInv ht hf hnd
  | clearStep => exact inv_clear hInv

/-- The invariant holds in every reachable state of a LOD. -/
lemma inv_reachable {meta : List Key} {s : LodState} (h : Reachable meta s) :
    StateInv s := by
  induction h with
  | refl => exact inv_init meta
  | tail _ hstep ih => exact inv_step ih hstep

/-- A state satisfying the invariant deduplicates rendering: among the
visible fulfilled tiles containing a feature id, the head of the holder
sequence renders it and every other one masks it. -/
lemma inv_dedupOk {s : LodState} (hInv : StateInv s) : dedupOk s := by
  intro fid k1 k2 hne h1 h2
  have hk1 : k1 ∈ holdersList s fid := (hInv.holders_iff fid k1).mpr h1
  rcases hh : (holdersList s fid).head? with _ | k0
  · rw [List.head?_eq_none_iff] at hh
    rw [hh] at hk1
    cases hk1
  · have hk0mem : k0 ∈ holdersList s fid := head?_mem_of_ne_nil hh
    rcases (hInv.holders_iff fid k0).mp hk0mem with ⟨hact0, t0, ht0, hf0, hfid0⟩
    refine ⟨k0, rfl, ?_, ?_, ?_⟩
    · refine ⟨hact0, ?_, t0, ht0, hf0, hfid0, ?_⟩
      · exact (hInv.layers_iff k0).mpr ⟨hact0, t0, ht0, hf0⟩
      · intro hmem
        rcases (hInv.masked_iff fid k0 t0 ht0).mp hmem with ⟨_, hne0⟩
        exact hne0 hh
    · intro k hrk
      rcases hrk with ⟨hact, _, t, ht, hf, hfid, hnm⟩
      have hkh : k ∈ holdersList s fid :=
        (hInv.holders_iff fid k).mpr ⟨hact, t, ht, hf, hfid⟩
      by_contra hkk0
      apply hnm
      rw [hInv.masked_iff fid k t ht]
      refine ⟨hkh, ?_⟩
      rw [hh]
      intro hc
      injection hc with hc
      exact hkk0 hc.symm
    · intro k hvk hkk0
      rcases hvk with ⟨hact, t, ht, hf, hfid⟩
      refine ⟨t, ht, ?_⟩
      rw [hInv.masked_iff fid k t ht]
      refine ⟨(hInv.holders_iff fid k).mpr ⟨hact, t, ht, hf, hfid⟩, ?_⟩
      rw [hh]
      intro hc
      injection hc with hc
      exact hkk0 hc.symm

end InvMain

section OpEffects

lemma hideTile_eq_fulfilled {s : LodState} {x y : Int} {tile : Tile}
    (hk : tileKey x y ∈ s.activeTiles) (hts : s.tiles (tileKey x y) = some tile)
    (hful : tile.fulfilled = true) :
    s.hideTile x y =
      { (s.removeLayerTile (tileKey x y)).removeFeatureHolders (tileKey x y) with
        activeTiles := setRemove
          ((s.removeLayerTile (tileKey x y)).removeFeatureHolders (tileKey x y)).activeTiles
          (tileKey x y) } := by
  simp only [LodState.hideTile]
  rw [if_pos hk, hts]
  dsimp only
  rw [hful, if_pos rfl]

lemma hideTile_eq_unfulfilled {s : LodState} {x y : Int} {tile : Tile}
    (hk : tileKey x y ∈ s.activeTiles) (hts : s.tiles (tileKey x y) = some tile)
    (hf : tile.fulfilled = false) :
    s.hideTile x y = { s with activeTiles := setRemove s.activeTiles (tileKey x y) } := by
  simp only [LodState.hideTile]
  rw [if_pos hk, hts]
  dsimp only
  rw [hf, if_neg Bool.false_ne_true]

lemma hideTile_not_active {s : LodState} {x y : Int}
    (hk : tileKey x y ∉ s.activeTiles) : s.hideTile x y = s := by
  simp only [LodState.hideTile]
  rw [if_neg hk]

lemma showCellIfNeeded_active {s : LodState} {x y : Int}
    (hk : tileKey x y ∈ s.activeTiles) : s.showCellIfNeeded x y = s := by
  simp only [LodState.showCellIfNeeded]
  rw [if_neg]
  rintro ⟨hna, _⟩
  exact hna hk

lemma showTile_frame_unfulfilled {s : LodState} {x y : Int} {tile : Tile}
    (hts : s.tiles (tileKey x y) = some tile) (hf : tile.fulfilled = false) :
    (s.showTile x y).featureHolders = s.featureHolders ∧
    (s.showTile x y).layers = s.layers ∧
    (s.showTile x y).tiles = s.tiles := by
  simp only [LodState.showTile]
  by_cases hm : tileKey x y ∈ s.metaTiles
  · rw [if_pos hm]
    have hex : (s.tiles (tileKey x y)).isSome := by
      rw [hts]; rfl
    rw [if_pos hex, hts]
    dsimp only
    rw [hf, if_neg Bool.false_ne_true]
    exact ⟨rfl, rfl, rfl⟩
  · rw [if_neg hm]
    exact ⟨rfl, rfl, rfl⟩

lemma loadComplete_eq_inactive {s : LodState} {k : Key} {t : Tile}
    (ht : s.tiles k = some t) (feats : List Feature) (hk : k ∉ s.activeTiles) :
    s.loadComplete k feats =
      { s with tiles := Function.update s.tiles k (some (loadedTile t feats)) } := by
  simp only [LodState.loadComplete]
  rw [ht]
  dsimp only
  rw [if_neg hk]

lemma loadComplete_eq_active {s : LodState} {k : Key} {t : Tile}
    (ht : s.tiles k = some t) (feats : List Feature) (hk : k ∈ s.activeTiles) :
    s.loadComplete k feats =
      (({ s with tiles := Function.update s.tiles k (some (loadedTile t feats)) }
        : LodState).addFeatureHolders k).addLayerTile k := by
  simp only [LodState.loadComplete]
  rw [ht]
  dsimp only
  rw [if_pos hk]

end OpEffects

section LodSelect

lemma fitFold_none (zoom : ℚ) (l : List LodMeta) :
    ∀ acc, l.foldl (fitStep zoom) acc = none →
      acc = none ∧ ∀ lod ∈ l, ¬ zoom ≤ lod.maxZoom := by
  induction l with
  | nil =>
      intro acc h
      exact ⟨h, by simp⟩
  | cons g rest ih =>
      intro acc h
      rw [List.foldl_cons] at h
      rcases ih (fitStep zoom acc g) h with ⟨h1, h2⟩
      cases acc with
      | none =>
          by_cases hz : zoom ≤ g.maxZoom
          · simp [fitStep, hz] at h1
          · refine ⟨rfl, ?_⟩
            intro lod hmem
            rcases List.mem_cons.mp hmem with rfl | hm2
            · exact hz
            · exact h2 lod hm2
      | some b =>
          exfalso
          simp only [fitStep] at h1
          split at h1 <;> cases h1

lemma fitStep_some_spec (zoom : ℚ) (acc : Option LodMeta) (g a2 : LodMeta)
    (ha2 : fitStep zoom acc g = some a2) :
    (acc = some a2 ∨ (a2 = g ∧ zoom ≤ g.maxZoom)) ∧
    (∀ a, acc = some a → a2.maxZoom ≤ a.maxZoom) ∧
    (zoom ≤ g.maxZoom → a2.maxZoom ≤ g.maxZoom) := by
  cases acc with
  | none =>
      by_cases hz : zoom ≤ g.maxZoom
      · simp only [fitStep, if_pos hz] at ha2
        injection ha2 with ha2
        subst ha2
        exact ⟨Or.inr ⟨rfl, hz⟩, fun a ha => Option.noConfusion ha, fun _ => le_refl _⟩
      · simp only [fitStep, if_neg hz] at ha2
        cases ha2
  | some a =>
      by_cases hcond : zoom ≤ g.maxZoom ∧ g.maxZoom < a.maxZoom
      · simp only [fitStep, if_pos hcond] at ha2
        injection ha2 with ha2
        subst ha2
        refine ⟨Or.inr ⟨rfl, hcond.1⟩, ?_, fun _ => le_refl _⟩
        intro a3 ha3
        injection ha3 with ha3
        subst ha3
        exact le_of_lt hcond.2
      · simp only [fitStep, if_neg hcond] at ha2
        injection ha2 with ha2
        subst ha2
        refine ⟨Or.inl rfl, ?_, ?_⟩
        · intro a3 ha3
          injection ha3 with ha3
          subst ha3
          exact le_refl _
        · intro hz
          rw [not_and, not_lt] at hcond
          exact hcond hz
lemma fitStep_ne_none_of_some (zoom : ℚ) (a : LodMeta) (g : LodMeta) :
    ∃ a2, fitStep zoom (some a) g = some a2 := by
  simp only [fitStep]
  split
  · exact ⟨g, rfl⟩
  · exact ⟨a, rfl⟩

lemma fitStep_eq_none (zoom : ℚ) (acc : Option LodMeta) (g : LodMeta)
    (h : fitStep zoom acc g = none) : acc = none ∧ ¬ zoom ≤ g.maxZoom := by
  cases acc with
  | none =>
      by_cases hz : zoom ≤ g.maxZoom
      · simp [fitStep, hz] at h
      · exact ⟨rfl, hz⟩
  | some a =>
      exfalso
      simp only [fitStep] at h
      split at h <;> cases h

lemma fitFold_spec (zoom : ℚ) (l : List LodMeta) :
    ∀ acc b, l.foldl (fitStep zoom) acc = some b →
      (acc = some b ∨ (b ∈ l ∧ zoom ≤ b.maxZoom)) ∧
      (∀ a, acc = some a → b.maxZoom ≤ a.maxZoom) ∧
      (∀ lod ∈ l, zoom ≤ lod.maxZoom → b.maxZoom ≤ lod.maxZoom) := by
  induction l with
  | nil =>
      intro acc b h
      refine ⟨Or.inl h, ?_, by simp⟩
      intro a ha
      rw [ha] at h
      injection h with h
      rw [h]
  | cons g rest ih =>
      intro acc b h
      rw [List.foldl_cons] at h
      rcases ih (fitStep zoom acc g) b h with ⟨h1, h2, h3⟩
      refine ⟨?_, ?_, ?_⟩
      · rcases h1 with hacc | ⟨hmem, hq⟩
        · rcases (fitStep_some_spec zoom acc g b hacc).1 with hs1 | ⟨rfl, hz⟩
          · exact Or.inl hs1
          · exact Or.inr ⟨List.mem_cons_self _ _, hz⟩
        · exact Or.inr ⟨List.mem_cons_of_mem g hmem, hq⟩
      · intro a ha
        subst ha
        rcases fitStep_ne_none_of_some zoom a g with ⟨a2, ha2⟩
        exact le_trans (h2 a2 ha2) ((fitStep_some_spec zoom _ g a2 ha2).2.1 a rfl)
      · intro lod hmem hq
        rcases List.mem_cons.mp hmem with rfl | hm2
        · rcases hacc2 : fitStep zoom acc lod with _ | a2
          · exact absurd hq (fitStep_eq_none zoom acc lod hacc2).2
          · exact le_trans (h2 a2 hacc2)
              ((fitStep_some_spec zoom acc lod a2 hacc2).2.2 hq)
        · exact h3 lod hm2 hq

lemma fallbackFold_spec (l : List LodMeta) :
    ∀ acc b, l.foldl fallbackStep acc = some b →
      (acc = some b ∨ b ∈ l) ∧
      (∀ a, acc = some a → a.maxZoom ≤ b.maxZoom) ∧
      (∀ lod ∈ l, lod.maxZoom ≤ b.maxZoom) := by
  induction l with
  | nil =>
      intro acc b h
      refine ⟨Or.inl h, ?_, by simp⟩
      intro a ha
      rw [ha] at h
      injection h with h
      rw [h]
  | cons g rest ih =>
      intro acc b h
      rw [List.foldl_cons] at h
      rcases ih (fallbackStep acc g) b h with ⟨h1, h2, h3⟩
      have hstep : ∀ a2, fallbackStep acc g = some a2 →
          (acc = some a2 ∨ a2 = g) ∧
          (∀ a, acc = some a → a.maxZoom ≤ a2.maxZoom) ∧ g.maxZoom ≤ a2.maxZoom := by
        intro a2 ha2
        cases acc with
        | none =>
            simp only [fallbackStep] at ha2
            injection ha2 with ha2
            subst ha2
            exact ⟨Or.inr rfl, fun a ha => Option.noConfusion ha, le_refl _⟩
        | some a =>
            simp only [fallbackStep] at ha2
            split at ha2
            · injection ha2 with ha2
              subst ha2
              refine ⟨Or.inr rfl, ?_, le_refl _⟩
              intro a3 ha3
              injection ha3 with ha3
              subst ha3
              exact le_of_lt (by assumption)
            · injection ha2 with ha2
              subst ha2
              refine ⟨Or.inl rfl, ?_, ?_⟩
              · intro a3 ha3
                injection ha3 with ha3
                subst ha3
                exact le_refl _
              · exact not_lt.mp (by assumption)
      have hex : ∃ a2, fallbackStep acc g = some a2 := by
        cases acc with
        | none => exact ⟨g, rfl⟩
        | some a =>
            simp only [fallbackStep]
            split
            · exact ⟨g, rfl⟩
            · exact ⟨a, rfl⟩
      rcases hex with ⟨a2, ha2⟩
      rcases hstep a2 ha2 with ⟨hs1, hs2, hs3⟩
      have hb2 := h2 a2 ha2
      refine ⟨?_, ?_, ?_⟩
      · rcases h1 with hacc | hmem
        · rw [ha2] at hacc
          injection hacc with hacc
          subst hacc
          rcases hs1 with hs1 | rfl
          · exact Or.inl hs1
          · exact Or.inr (List.mem_cons_self _ _)
        · exact Or.inr (List.mem_cons_of_mem g hmem)
      · intro a ha
        exact le_trans (hs2 a ha) hb2
      · intro lod hmem
        rcases List.mem_cons.mp hmem with rfl | hm2
        · exact le_trans hs3 hb2
        · exact h3 lod hm2











lemma fallbackFold_isSome (l : List LodMeta) : ∀ a : LodMeta,
    ∃ b, l.foldl fallbackStep (some a) = some b := by
  induction l with
  | nil => exact fun a => ⟨a, rfl⟩
  | cons g rest ih =>
      intro a
      rw [List.foldl_cons,
        show fallbackStep (some a) g
          = if g.maxZoom > a.maxZoom then some g else some a from rfl]
      by_cases h : g.maxZoom > a.maxZoom
      · rw [if_pos h]
        exact ih g
      · rw [if_neg h]
        exact ih a

end LodSelect

section GridViewLemmas

lemma floor_le_iff_not_int {q : ℚ} {x : ℤ} (h : (⌊q⌋ : ℚ) ≠ q) :
    ⌊q⌋ ≤ x ↔ q ≤ (x : ℚ) + 1 := by
  constructor
  · intro hle
    by_contra hq
    push_neg at hq
    have h1 : ((x + 1 : ℤ) : ℚ) ≤ q := by
      push_cast
      exact le_of_lt hq
    have h2 : x + 1 ≤ ⌊q⌋ := Int.le_floor.mpr h1
    omega
  · intro hq
    by_contra hlt
    push_neg at hlt
    have h1 : x + 1 ≤ ⌊q⌋ := hlt
    have h2 : ((x + 1 : ℤ) : ℚ) ≤ q := Int.le_floor.mp h1
    have h3 : q = (x : ℚ) + 1 := by
      push_cast at h2
      linarith
    apply h
    rw [h3]
    have : ⌊(x : ℚ) + 1⌋ = x + 1 := by
      rw [show (x : ℚ) + 1 = ((x + 1 : ℤ) : ℚ) by push_cast; ring]
      exact Int.floor_intCast _
    rw [this]
    push_cast
    ring

lemma lt_ceil_iff_not_int {q : ℚ} {x : ℤ} (h : (⌊q⌋ : ℚ) ≠ q) :
    x < ⌈q⌉ ↔ (x : ℚ) ≤ q := by
  rw [Int.lt_ceil]
  constructor
  · exact le_of_lt
  · intro hle
    rcases lt_or_eq_of_le hle with hlt | heq
    · exact hlt
    · exfalso
      apply h
      rw [← heq]
      rw [Int.floor_intCast]
  
lemma sameAs_iff (v w : GridView) : v.sameAs w = true ↔
    (w.resolution = v.resolution ∧ w.minX = v.minX ∧ w.minY = v.minY ∧
     w.stepsX = v.stepsX ∧ w.stepsY = v.stepsY) := by
  simp [GridView.sameAs, Bool.and_eq_true, beq_iff_eq, and_assoc]

end GridViewLemmas

section WitnessStates

/-- A two-cell tile index used to build concrete states. -/
def metaW : List Key := [(0, 0), (1, 0)]

def w0 : LodState := initState metaW

def w1 : LodState := w0.showTile 0 0

def w2 : LodState := w1.loadComplete (0, 0) [⟨some 5⟩]

def w3 : LodState := w2.showTile 1 0

/-- Two visible fulfilled tiles sharing feature id 5; tile (0,0) was shown
first and is the canonical holder, tile (1,0) masks the feature. -/
def witState : LodState := w3.loadComplete (1, 0) [⟨some 5⟩]

lemma reachable_w1 : Reachable metaW w1 :=
  Relation.ReflTransGen.tail Relation.ReflTransGen.refl
    (LodStep.showStep 0 0 (by decide))

lemma reachable_w2 : Reachable metaW w2 :=
  Relation.ReflTransGen.tail reachable_w1
    (LodStep.loadStep (0, 0) (freshTile (0, 0)) [⟨some 5⟩] (by decide) (by decide)
      (by decide))

lemma reachable_w3 : Reachable metaW w3 :=
  Relation.ReflTransGen.tail reachable_w2 (LodStep.showStep 1 0 (by decide))

lemma reachable_witState : Reachable metaW witState :=
  Relation.ReflTransGen.tail reachable_w3
    (LodStep.loadStep (1, 0) (freshTile (1, 0)) [⟨some 5⟩] (by decide) (by decide)
      (by decide))

lemma stateInv_witState : StateInv witState := inv_reachable reachable_witState

lemma stateInv_w1 : StateInv w1 := inv_reachable reachable_w1

lemma stateInv_w3 : StateInv w3 := inv_reachable reachable_w3

/-- The state where the still-loading tile (0,0) has been hidden again. -/
def wHidden : LodState := w1.hideTile 0 0

lemma stateInv_wHidden : StateInv wHidden := inv_hide stateInv_w1 0 0

end WitnessStates

section Claims

/-- C1: in every reachable state of a LOD, the scheduling invariant holds,
and for every feature id carried by two or more simultaneously visible
fulfilled tiles exactly one of them renders it — the tile at the head of the
holder sequence is unmasked and rendering, every other visible tile carrying
the id masks it; moreover this dedup property is preserved by every show,
hide, load-completion and clear-active transition. -/
theorem c1_feature_dedup_invariant (meta : List Key) (s : LodState)
    (h : Reachable meta s) :
    StateInv s ∧ dedupOk s ∧ ∀ s2, LodStep s s2 → dedupOk s2 :=
  ⟨inv_reachable h, inv_dedupOk (inv_reachable h),
   fun _ hstep => inv_dedupOk (inv_step (inv_reachable h) hstep)⟩

theorem c1_feature_dedup_invariant_witness :
    StateInv witState ∧ dedupOk witState ∧ dedupOk (witState.hideTile 0 0) :=
  ⟨(c1_feature_dedup_invariant metaW witState reachable_witState).1,
   (c1_feature_dedup_invariant metaW witState reachable_witState).2.1,
   (c1_feature_dedup_invariant metaW witState reachable_witState).2.2
     (witState.hideTile 0 0) (LodStep.hideStep 0 0)⟩

/-- C4: the tile loader retries every failure (network rejection or
body/parse error) with a delay that starts at the 1-second base and doubles
with each consecutive failure, unbounded; the metadata loader does the same
for body/parse failures, but a network-level rejection of the metadata fetch
escapes the handler entirely (the catch is attached inside the outer then),
so the two fetches are not handled identically as the claim states. -/
theorem c4_retry_backoff :
    (∀ (α : Type) (rt : Nat),
      @loadMetaHandle α rt FetchResult.rejected = HandlerEffect.unhandledRejection) ∧
    (∀ (α : Type) (rt : Nat),
      @loadMetaHandle α rt FetchResult.bodyError
        = HandlerEffect.retryScheduled rt (rt * 2)) ∧
    (∀ (α : Type) (rt : Nat),
      @loadTileHandle α rt FetchResult.rejected
        = HandlerEffect.retryScheduled rt (rt * 2)) ∧
    (∀ (α : Type) (rt : Nat),
      @loadTileHandle α rt FetchResult.bodyError
        = HandlerEffect.retryScheduled rt (rt * 2)) ∧
    metaRetrySeq 0 = 1 ∧ tileRetrySeq 0 = 1 ∧
    (∀ n, metaRetrySeq (n + 1) = 2 * metaRetrySeq n) ∧
    (∀ n, tileRetrySeq (n + 1) = 2 * tileRetrySeq n) ∧
    (∀ n, metaRetrySeq n = 2 ^ n ∧ tileRetrySeq n = 2 ^ n) := by
  refine ⟨fun α rt => rfl, fun α rt => rfl, fun α rt => rfl, fun α rt => rfl,
    rfl, rfl, ?_, ?_, ?_⟩
  · intro n
    simp [metaRetrySeq, Nat.mul_comm]
  · intro n
    simp [tileRetrySeq, Nat.mul_comm]
  · intro n
    induction n with
    | zero => exact ⟨rfl, rfl⟩
    | succ m ih =>
        refine ⟨?_, ?_⟩
        · simp [metaRetrySeq, ih.1, pow_succ]
        · simp [tileRetrySeq, ih.2, pow_succ]

/-- C2: with two fulfilled visible tiles T1 and T2 both carrying feature F,
T1 shown first (F masked in T2): hiding T1 removes T1 from F's holder
sequence and unmasks F in T2, which becomes the canonical renderer; hiding T2
afterwards leaves F's holder sequence empty in the registry. -/
theorem c2_holder_promotion (s : LodState) (x1 y1 x2 y2 : Int) (fid : Nat)
    (hInv : StateInv s)
    (hh : s.featureHolders fid = some [tileKey x1 y1, tileKey x2 y2]) :
    maskedIn (s.tiles (tileKey x2 y2)) fid ∧
    (s.hideTile x1 y1).featureHolders fid = some [tileKey x2 y2] ∧
    ¬ maskedIn ((s.hideTile x1 y1).tiles (tileKey x2 y2)) fid ∧
    rendersFeature (s.hideTile x1 y1) (tileKey x2 y2) fid ∧
    ((s.hideTile x1 y1).hideTile x2 y2).featureHolders fid = some [] := by
  have hlist : holdersList s fid = [tileKey x1 y1, tileKey x2 y2] := by
    rw [holdersList, hh]
    rfl
  have hk1mem : tileKey x1 y1 ∈ holdersList s fid := by rw [hlist]; simp
  have hk2mem : tileKey x2 y2 ∈ holdersList s fid := by rw [hlist]; simp
  have hnd12 : tileKey x1 y1 ≠ tileKey x2 y2 := by
    have hnd := hInv.holders_nodup fid
    rw [hlist] at hnd
    rcases List.nodup_cons.mp hnd with ⟨hnotin, _⟩
    intro hc
    exact hnotin (by rw [hc]; simp)
  have hne21 : tileKey x2 y2 ≠ tileKey x1 y1 := Ne.symm hnd12
  rcases (hInv.holders_iff fid _).mp hk1mem with ⟨hact1, t1, ht1, hf1, hfid1⟩
  rcases (hInv.holders_iff fid _).mp hk2mem with ⟨hact2, t2, ht2, hf2, hfid2⟩
  rcases hc1 : t1.featureCollection with _ | feats1
  · exfalso
    rw [show t1.fids = [] by simp [Tile.fids, hc1]] at hfid1
    cases hfid1
  have hfidF1 : fid ∈ feats1.filterMap Feature.fid := by
    rw [tile_fids_of_coll hc1] at hfid1
    exact hfid1
  have hnd1 : (feats1.filterMap Feature.fid).Nodup := by
    have := hInv.coll_nodup _ t1 ht1
    rwa [tile_fids_of_coll hc1] at this
  have hmask2 : maskedIn (s.tiles (tileKey x2 y2)) fid := by
    rw [ht2]
    refine (hInv.masked_iff fid _ t2 ht2).mpr ⟨hk2mem, ?_⟩
    rw [hlist]
    intro hc
    injection hc with hc
    exact hnd12 hc
  have hs' := hideTile_eq_fulfilled hact1 ht1 hf1
  rcases removeFeatureHolders_mem_some
    (show (s.removeLayerTile (tileKey x1 y1)).tiles (tileKey x1 y1) = some t1 from ht1)
    hc1 hnd1 hfidF1
    (show (s.removeLayerTile (tileKey x1 y1)).featureHolders fid
      = some [tileKey x1 y1, tileKey x2 y2] from hh) with ⟨hhold, hmaskr⟩
  have hfil : List.filter (fun j => decide (j ≠ tileKey x1 y1))
      [tileKey x1 y1, tileKey x2 y2] = [tileKey x2 y2] := by
    simp [List.filter_cons, hne21]
  have hconc2 : (s.hideTile x1 y1).featureHolders fid = some [tileKey x2 y2] := by
    rw [hs']
    dsimp only
    rw [hhold, hfil]
  have hcondp : ([tileKey x1 y1, tileKey x2 y2].head? = some (tileKey x1 y1)) ∧
      (([tileKey x1 y1, tileKey x2 y2].filter
        (fun x => decide (x ≠ tileKey x1 y1))).head? = some (tileKey x2 y2)) :=
    ⟨rfl, by rw [hfil]; rfl⟩
  have hconc3 : ¬ maskedIn ((s.hideTile x1 y1).tiles (tileKey x2 y2)) fid := by
    rw [hs']
    dsimp only
    rw [hmaskr (tileKey x2 y2)]
    unfold removedMask
    rw [if_neg hne21, if_pos hcondp]
    exact fun h => h
  have hshape2 := @removeFeatureHolders_tshape
    (s.removeLayerTile (tileKey x1 y1)) (tileKey x1 y1) (tileKey x2 y2)
  rcases tshape_eq_elim hshape2 with ⟨h1, h1b⟩ | ⟨t2b, t2c, h1, h2c, _, hfeq, hceq⟩
  · rw [show (s.removeLayerTile (tileKey x1 y1)).tiles (tileKey x2 y2) = some t2
      from ht2] at h1b
    cases h1b
  · rw [show (s.removeLayerTile (tileKey x1 y1)).tiles (tileKey x2 y2) = some t2
      from ht2] at h2c
    injection h2c with h2c
    subst h2c
    have hts2' : (s.hideTile x1 y1).tiles (tileKey x2 y2) = some t2b := by
      rw [hs']
      exact h1
    have hf2' : t2b.fulfilled = true := hfeq.trans hf2
    have hnm2 : fid ∉ t2b.maskedFeatures := by
      intro hm
      apply hconc3
      rw [hts2']
      exact hm
    have hact2' : tileKey x2 y2 ∈ (s.hideTile x1 y1).activeTiles := by
      rw [hs']
      dsimp only
      rw [(@removeFeatureHolders_frames (s.removeLayerTile (tileKey x1 y1))
        (tileKey x1 y1)).2.1]
      exact mem_setRemove.mpr ⟨hact2, hne21⟩
    have hlay2' : tileKey x2 y2 ∈ (s.hideTile x1 y1).layers := by
      rw [hs']
      dsimp only
      rw [(@removeFeatureHolders_frames (s.removeLayerTile (tileKey x1 y1))
        (tileKey x1 y1)).2.2.1]
      exact mem_setRemove.mpr
        ⟨(hInv.layers_iff _).mpr ⟨hact2, t2, ht2, hf2⟩, hne21⟩
    have hfid2b : fid ∈ t2b.fids := by
      rw [fids_congr hceq]
      exact hfid2
    refine ⟨hmask2, hconc2, hconc3,
      ⟨hact2', hlay2', t2b, hts2', hf2', hfid2b, hnm2⟩, ?_⟩
    -- second hide
    have hInv' : StateInv (s.hideTile x1 y1) := inv_hide hInv x1 y1
    rcases hc2 : t2.featureCollection with _ | feats2
    · exfalso
      rw [show t2.fids = [] by simp [Tile.fids, hc2]] at hfid2
      cases hfid2
    have hc2' : t2b.featureCollection = some feats2 := hceq.trans hc2
    have hfidF2 : fid ∈ feats2.filterMap Feature.fid := by
      rw [tile_fids_of_coll hc2'] at hfid2b
      exact hfid2b
    have hnd2 : (feats2.filterMap Feature.fid).Nodup := by
      have := hInv'.coll_nodup _ t2b hts2'
      rwa [tile_fids_of_coll hc2'] at this
    rcases removeFeatureHolders_mem_some
      (show ((s.hideTile x1 y1).removeLayerTile (tileKey x2 y2)).tiles (tileKey x2 y2)
        = some t2b from hts2')
      hc2' hnd2 hfidF2
      (show ((s.hideTile x1 y1).removeLayerTile (tileKey x2 y2)).featureHolders fid
        = some [tileKey x2 y2] from hconc2) with ⟨hhold2, _⟩
    have hfil2 : List.filter (fun j => decide (j ≠ tileKey x2 y2)) [tileKey x2 y2]
        = [] := by simp
    rw [hideTile_eq_fulfilled hact2' hts2' hf2']
    dsimp only
    rw [hhold2, hfil2]

theorem c2_holder_promotion_witness :
    maskedIn (witState.tiles (tileKey 1 0)) 5 ∧
    (witState.hideTile 0 0).featureHolders 5 = some [tileKey 1 0] ∧
    ¬ maskedIn ((witState.hideTile 0 0).tiles (tileKey 1 0)) 5 ∧
    rendersFeature (witState.hideTile 0 0) (tileKey 1 0) 5 ∧
    ((witState.hideTile 0 0).hideTile 1 0).featureHolders 5 = some [] :=
  c2_holder_promotion witState 0 0 1 0 5 stateInv_witState (by decide)

/-- C3 counterexample: in the concrete two-tile state, hiding tile (1,0),
whose key is not the first entry of feature 5's holder sequence, changes the
hidden tile's own masked state — the feature was masked there before the hide
and is unmasked afterwards — contradicting the claim that the masked state of
every tile (including the hidden one) is left unchanged. -/
theorem c3_counterexample :
    witState.featureHolders 5 = some [tileKey 0 0, tileKey 1 0] ∧
    tileKey 1 0 ∈ witState.activeTiles ∧
    (holdersList witState 5).head? ≠ some (tileKey 1 0) ∧
    maskedIn (witState.tiles (tileKey 1 0)) 5 ∧
    ¬ maskedIn ((witState.hideTile 1 0).tiles (tileKey 1 0)) 5 := by
  decide

/-- C3 amended: when a fulfilled tile is hidden and its key is not the first
entry of a carried feature id's holder sequence, the key is removed from the
sequence and no unmasking is performed in any other tile — but the hidden
tile's own masked entry for that feature is cleared (the code unmasks it in
the hidden tile), rather than every tile's masked state being unchanged. -/
theorem c3_hide_nonfirst (s : LodState) (x y : Int) (fid : Nat) (tile : Tile)
    (feats : List Feature) (l0 : List Key) (hInv : StateInv s)
    (hk : tileKey x y ∈ s.activeTiles) (hts : s.tiles (tileKey x y) = some tile)
    (hful : tile.fulfilled = true) (hc : tile.featureCollection = some feats)
    (hfid : fid ∈ feats.filterMap Feature.fid)
    (hh : s.featureHolders fid = some l0)
    (hhead : l0.head? ≠ some (tileKey x y)) :
    (s.hideTile x y).featureHolders fid
      = some (l0.filter (fun j => decide (j ≠ tileKey x y))) ∧
    (∀ k, k ≠ tileKey x y →
      (maskedIn ((s.hideTile x y).tiles k) fid ↔ maskedIn (s.tiles k) fid)) ∧
    ¬ maskedIn ((s.hideTile x y).tiles (tileKey x y)) fid ∧
    (s.hideTile x y).activeTiles = setRemove s.activeTiles (tileKey x y) := by
  have hnd : (feats.filterMap Feature.fid).Nodup := by
    have := hInv.coll_nodup _ tile hts
    rwa [tile_fids_of_coll hc] at this
  have hs' := hideTile_eq_fulfilled hk hts hful
  rcases removeFeatureHolders_mem_some
    (show (s.removeLayerTile (tileKey x y)).tiles (tileKey x y) = some tile from hts)
    hc hnd hfid
    (show (s.removeLayerTile (tileKey x y)).featureHolders fid = some l0 from hh)
    with ⟨hhold, hmaskr⟩
  refine ⟨?_, ?_, ?_, ?_⟩
  · rw [hs']
    dsimp only
    exact hhold
  · intro k hkne
    rw [hs']
    dsimp only
    rw [hmaskr k]
    unfold removedMask
    rw [if_neg hkne, if_neg (fun hcnd => hhead hcnd.1)]
    exact Iff.rfl
  · rw [hs']
    dsimp only
    rw [hmaskr (tileKey x y)]
    unfold removedMask
    rw [if_pos rfl]
    exact fun hcnd => hhead hcnd.1
  · rw [hs']
    dsimp only
    rw [(@removeFeatureHolders_frames (s.removeLayerTile (tileKey x y))
      (tileKey x y)).2.1]
    rfl

theorem c3_hide_nonfirst_witness :
    (witState.hideTile 1 0).featureHolders 5
      = some ([tileKey 0 0, tileKey 1 0].filter (fun j => decide (j ≠ tileKey 1 0))) ∧
    (maskedIn ((witState.hideTile 1 0).tiles (tileKey 0 0)) 5 ↔
      maskedIn (witState.tiles (tileKey 0 0)) 5) ∧
    ¬ maskedIn ((witState.hideTile 1 0).tiles (tileKey 1 0)) 5 ∧
    (witState.hideTile 1 0).activeTiles = setRemove witState.activeTiles (tileKey 1 0) :=
  ⟨(c3_hide_nonfirst witState 1 0 5 ⟨(1, 0), true, some [⟨some 5⟩], [5]⟩
      [⟨some 5⟩] [tileKey 0 0, tileKey 1 0] stateInv_witState (by decide) (by decide)
      (by decide) (by decide) (by decide) (by decide) (by decide)).1,
   (c3_hide_nonfirst witState 1 0 5 ⟨(1, 0), true, some [⟨some 5⟩], [5]⟩
      [⟨some 5⟩] [tileKey 0 0, tileKey 1 0] stateInv_witState (by decide) (by decide)
      (by decide) (by decide) (by decide) (by decide) (by decide)).2.1
      (tileKey 0 0) (by decide),
   (c3_hide_nonfirst witState 1 0 5 ⟨(1, 0), true, some [⟨some 5⟩], [5]⟩
      [⟨some 5⟩] [tileKey 0 0, tileKey 1 0] stateInv_witState (by decide) (by decide)
      (by decide) (by decide) (by decide) (by decide) (by decide)).2.2.1,
   (c3_hide_nonfirst witState 1 0 5 ⟨(1, 0), true, some [⟨some 5⟩], [5]⟩
      [⟨some 5⟩] [tileKey 0 0, tileKey 1 0] stateInv_witState (by decide) (by decide)
      (by decide) (by decide) (by decide) (by decide) (by decide)).2.2.2⟩

/-- C5: holder registration and rendering are deferred for a tile shown while
unfulfilled — showing it changes neither the registry nor the layer set; the
load-completion callback performs the registration and render exactly once and
only if the key is still active at completion: if the key is inactive at
completion nothing is registered or rendered, and if it is active the key is
appended once to each carried feature id's holder sequence (it was not there
before) and the tile enters the layer set. -/
theorem c5_deferred_registration (s : LodState) (x y : Int) (tile : Tile)
    (feats : List Feature) (hInv : StateInv s) :
    (s.tiles (tileKey x y) = some tile → tile.fulfilled = false →
      (s.showTile x y).featureHolders = s.featureHolders ∧
      (s.showTile x y).layers = s.layers) ∧
    (s.tiles (tileKey x y) = some tile → tileKey x y ∉ s.activeTiles →
      (s.loadComplete (tileKey x y) feats).featureHolders = s.featureHolders ∧
      (s.loadComplete (tileKey x y) feats).layers = s.layers ∧
      (∀ fid, tileKey x y ∉ holdersList (s.loadComplete (tileKey x y) feats) fid) ∧
      tileKey x y ∉ (s.loadComplete (tileKey x y) feats).layers) ∧
    (s.tiles (tileKey x y) = some tile → tile.fulfilled = false →
      tileKey x y ∈ s.activeTiles → (feats.filterMap Feature.fid).Nodup →
      tileKey x y ∈ (s.loadComplete (tileKey x y) feats).layers ∧
      ∀ fid, fid ∈ feats.filterMap Feature.fid →
        holdersList (s.loadComplete (tileKey x y) feats) fid
          = holdersList s fid ++ [tileKey x y] ∧
        tileKey x y ∉ holdersList s fid) := by
  refine ⟨?_, ?_, ?_⟩
  · intro hts hful
    exact ⟨(showTile_frame_unfulfilled hts hful).1,
      (showTile_frame_unfulfilled hts hful).2.1⟩
  · intro hts hact
    rw [loadComplete_eq_inactive hts feats hact]
    refine ⟨rfl, rfl, ?_, ?_⟩
    · intro fid
      have hnv : ¬ visHolds s (tileKey x y) fid := not_visHolds_of_not_active hact
      exact not_holder_of_not_visHolds hInv hnv
    · intro hmem
      exact hact (((hInv.layers_iff (tileKey x y)).mp hmem).1)
  · intro hts hful hact hnd
    have hu : ({ s with tiles := Function.update s.tiles (tileKey x y) (some (loadedTile tile feats)) } : LodState).tiles (tileKey x y)
        = some (loadedTile tile feats) := by
      dsimp only
      rw [Function.update_same]
    have hc : (loadedTile tile feats).featureCollection = some feats := rfl
    constructor
    · rw [loadComplete_eq_active hts feats hact]
      exact mem_setInsert.mpr (Or.inl rfl)
    · intro fid hfmem
      constructor
      · have hh := addFeatureHolders_holders_mem hu hc hnd hfmem
        rw [holdersList, loadComplete_eq_active hts feats hact]
        dsimp only [LodState.addLayerTile]
        rw [hh]
        rfl
      · exact not_holder_of_not_visHolds hInv
          (not_visHolds_of_not_fulfilled hts hful)

theorem c5_deferred_registration_witness :
    (((w1.showTile 0 0).featureHolders = w1.featureHolders ∧
      (w1.showTile 0 0).layers = w1.layers) ∧
     ((wHidden.loadComplete (tileKey 0 0) [⟨some 5⟩]).featureHolders
        = wHidden.featureHolders ∧
      (wHidden.loadComplete (tileKey 0 0) [⟨some 5⟩]).layers = wHidden.layers ∧
      tileKey 0 0 ∉ holdersList (wHidden.loadComplete (tileKey 0 0) [⟨some 5⟩]) 5 ∧
      tileKey 0 0 ∉ (wHidden.loadComplete (tileKey 0 0) [⟨some 5⟩]).layers) ∧
     (tileKey 1 0 ∈ (w3.loadComplete (tileKey 1 0) [⟨some 5⟩]).layers ∧
      holdersList (w3.loadComplete (tileKey 1 0) [⟨some 5⟩]) 5
        = holdersList w3 5 ++ [tileKey 1 0] ∧
      tileKey 1 0 ∉ holdersList w3 5)) := by
  refine ⟨?_, ⟨?_, ?_, ?_, ?_⟩, ?_, ?_, ?_⟩
  · exact (c5_deferred_registration w1 0 0 (freshTile (0, 0)) [⟨some 5⟩]
      stateInv_w1).1 (by decide) (by decide)
  · exact ((c5_deferred_registration wHidden 0 0 (freshTile (0, 0)) [⟨some 5⟩]
      stateInv_wHidden).2.1 (by decide) (by decide)).1
  · exact ((c5_deferred_registration wHidden 0 0 (freshTile (0, 0)) [⟨some 5⟩]
      stateInv_wHidden).2.1 (by decide) (by decide)).2.1
  · exact ((c5_deferred_registration wHidden 0 0 (freshTile (0, 0)) [⟨some 5⟩]
      stateInv_wHidden).2.1 (by decide) (by decide)).2.2.1 5
  · exact ((c5_deferred_registration wHidden 0 0 (freshTile (0, 0)) [⟨some 5⟩]
      stateInv_wHidden).2.1 (by decide) (by decide)).2.2.2
  · exact ((c5_deferred_registration w3 1 0 (freshTile (1, 0)) [⟨some 5⟩]
      stateInv_w3).2.2 (by decide) (by decide) (by decide) (by decide)).1
  · exact (((c5_deferred_registration w3 1 0 (freshTile (1, 0)) [⟨some 5⟩]
      stateInv_w3).2.2 (by decide) (by decide) (by decide) (by decide)).2 5
      (by decide)).1
  · exact (((c5_deferred_registration w3 1 0 (freshTile (1, 0)) [⟨some 5⟩]
      stateInv_w3).2.2 (by decide) (by decide) (by decide) (by decide)).2 5
      (by decide)).2

/-- C6: for every non-empty LOD list and effective zoom z (map zoom plus 1
exactly when the retina option is set and a high-density display is
detected), selection returns some LOD of the list; whenever some listed LOD
qualifies (z at most its max zoom) the returned LOD qualifies and has the
smallest max zoom among the qualifiers, and when none qualifies the returned
LOD has the largest max zoom; in particular for max zooms 2, 4, 6 the zooms
3, 7, 2 select 4, 6, 2 respectively. -/
theorem c6_lod_selection (lods : List LodMeta) (mapZoom : ℚ) (dr rt : Bool)
    (hne : lods ≠ []) :
    (∃ best, selectLod lods (effectiveZoom mapZoom dr rt) = some best ∧
      best ∈ lods ∧
      (∀ l ∈ lods, effectiveZoom mapZoom dr rt ≤ l.maxZoom →
        effectiveZoom mapZoom dr rt ≤ best.maxZoom ∧ best.maxZoom ≤ l.maxZoom) ∧
      ((∀ l ∈ lods, ¬ effectiveZoom mapZoom dr rt ≤ l.maxZoom) →
        ∀ l ∈ lods, l.maxZoom ≤ best.maxZoom)) ∧
    effectiveZoom mapZoom true true = mapZoom + 1 ∧
    effectiveZoom mapZoom dr false = mapZoom ∧
    selectLod [⟨2⟩, ⟨4⟩, ⟨6⟩] 3 = some ⟨4⟩ ∧
    selectLod [⟨2⟩, ⟨4⟩, ⟨6⟩] 7 = some ⟨6⟩ ∧
    selectLod [⟨2⟩, ⟨4⟩, ⟨6⟩] 2 = some ⟨2⟩ := by
  refine ⟨?_, by simp [effectiveZoom], by simp [effectiveZoom],
    by decide, by decide, by decide⟩
  generalize effectiveZoom mapZoom dr rt = z
  rcases hfit : lods.foldl (fitStep z) none with _ | b
  · rcases lods with _ | ⟨g, rest⟩
    · exact absurd rfl hne
    have hnofit := fitFold_none z (g :: rest) none hfit
    rcases fallbackFold_isSome rest g with ⟨b, hb⟩
    have hsel : selectLod (g :: rest) z = some b := by
      simp only [selectLod, hfit]
      rw [List.foldl_cons]
      exact hb
    rcases fallbackFold_spec rest (some g) b hb with ⟨h1, h2, h3⟩
    refine ⟨b, hsel, ?_, ?_, ?_⟩
    · rcases h1 with hg | hmem
      · injection hg with hg
        rw [← hg]
        exact List.mem_cons_self _ _
      · exact List.mem_cons_of_mem g hmem
    · intro l hl hql
      exact absurd hql (hnofit.2 l hl)
    · intro _ l hl
      rcases List.mem_cons.mp hl with rfl | hl2
      · exact h2 _ rfl
      · exact h3 l hl2
  · rcases fitFold_spec z lods none b hfit with ⟨h1, _, h3⟩
    rcases h1 with hacc | ⟨hmem, hq⟩
    · exact Option.noConfusion hacc
    refine ⟨b, by simp only [selectLod, hfit], hmem, ?_, ?_⟩
    · intro l hl hql
      exact ⟨hq, h3 l hl hql⟩
    · intro hnone
      exact absurd hq (hnone b hmem)

theorem c6_lod_selection_witness :
    (∃ best, selectLod [⟨2⟩, ⟨4⟩, ⟨6⟩] (effectiveZoom 3 false false) = some best ∧
      best ∈ ([⟨2⟩, ⟨4⟩, ⟨6⟩] : List LodMeta) ∧
      (∀ l ∈ ([⟨2⟩, ⟨4⟩, ⟨6⟩] : List LodMeta),
        effectiveZoom 3 false false ≤ l.maxZoom →
        effectiveZoom 3 false false ≤ best.maxZoom ∧ best.maxZoom ≤ l.maxZoom) ∧
      ((∀ l ∈ ([⟨2⟩, ⟨4⟩, ⟨6⟩] : List LodMeta),
        ¬ effectiveZoom 3 false false ≤ l.maxZoom) →
        ∀ l ∈ ([⟨2⟩, ⟨4⟩, ⟨6⟩] : List LodMeta), l.maxZoom ≤ best.maxZoom)) ∧
    effectiveZoom 3 true true = 3 + 1 ∧
    effectiveZoom 3 false false = 3 ∧
    selectLod [⟨2⟩, ⟨4⟩, ⟨6⟩] 3 = some ⟨4⟩ ∧
    selectLod [⟨2⟩, ⟨4⟩, ⟨6⟩] 7 = some ⟨6⟩ ∧
    selectLod [⟨2⟩, ⟨4⟩, ⟨6⟩] 2 = some ⟨2⟩ :=
  c6_lod_selection [⟨2⟩, ⟨4⟩, ⟨6⟩] 3 false false (by decide)

/-- C7 counterexample: with resolution 1, origin (0,0) and ordered bounds
(0,0)–(1,1), the closed rectangle of cell (-1,0) touches the bounds at the
shared edge x = 0, yet the cell lies outside the computed window (its minX is
floor 0 = 0), so the window is not exactly the set of cells whose closed cell
rectangle intersects the bounds. -/
theorem c7_counterexample :
    (0 : ℚ) < 1 ∧
    (⟨0, 0, 1, 1⟩ : LatLngBounds).west ≤ (⟨0, 0, 1, 1⟩ : LatLngBounds).east ∧
    (⟨0, 0, 1, 1⟩ : LatLngBounds).south ≤ (⟨0, 0, 1, 1⟩ : LatLngBounds).north ∧
    cellIntersectsClosed 1 0 0 ⟨0, 0, 1, 1⟩ (-1) 0 ∧
    ¬ cellInWindow (GridView.make 1 0 0 ⟨0, 0, 1, 1⟩) (-1) 0 := by
  refine ⟨by norm_num, by norm_num, by norm_num, ?_, ?_⟩
  · unfold cellIntersectsClosed
    norm_num
  · unfold cellInWindow GridView.make
    dsimp only
    norm_num

/-- C7 amended: for positive resolution and ordered bounds, the view fields
are the stated floor/ceiling formulas, equal inputs give a sameAs-equal view,
and sameAs-equality forces the resolution and all four floor/ceiling values
to coincide; but the window is exactly the set of cells whose closed cell
rectangle intersects the closed bounds rectangle only under the additional
proviso that none of the four scaled offsets is an integer — when an edge of
the bounds falls exactly on a grid line, a touching boundary cell intersects
the bounds yet is excluded from the window (the window is half-open in grid
space). -/
theorem c7_gridview (r ox oy : ℚ) (b : LatLngBounds) (hr : 0 < r)
    (hw : ((⌊(b.west - ox) / r⌋ : ℚ)) ≠ (b.west - ox) / r)
    (hs : ((⌊(b.south - oy) / r⌋ : ℚ)) ≠ (b.south - oy) / r)
    (he : ((⌊(b.east - ox) / r⌋ : ℚ)) ≠ (b.east - ox) / r)
    (hn : ((⌊(b.north - oy) / r⌋ : ℚ)) ≠ (b.north - oy) / r) :
    (GridView.make r ox oy b).resolution = r ∧
    (GridView.make r ox oy b).minX = ⌊(b.west - ox) / r⌋ ∧
    (GridView.make r ox oy b).minY = ⌊(b.south - oy) / r⌋ ∧
    (GridView.make r ox oy b).stepsX
      = ⌈(b.east - ox) / r⌉ - ⌊(b.west - ox) / r⌋ ∧
    (GridView.make r ox oy b).stepsY
      = ⌈(b.north - oy) / r⌉ - ⌊(b.south - oy) / r⌋ ∧
    (∀ x y : ℤ, cellInWindow (GridView.make r ox oy b) x y ↔
      cellIntersectsClosed r ox oy b x y) ∧
    (GridView.make r ox oy b).sameAs (GridView.make r ox oy b) = true ∧
    (∀ r2 ox2 oy2 : ℚ, ∀ b2 : LatLngBounds,
      (GridView.make r ox oy b).sameAs (GridView.make r2 ox2 oy2 b2) = true →
      r2 = r ∧
      ⌊(b2.west - ox2) / r2⌋ = ⌊(b.west - ox) / r⌋ ∧
      ⌊(b2.south - oy2) / r2⌋ = ⌊(b.south - oy) / r⌋ ∧
      ⌈(b2.east - ox2) / r2⌉ = ⌈(b.east - ox) / r⌉ ∧
      ⌈(b2.north - oy2) / r2⌉ = ⌈(b.north - oy) / r⌉) := by
  have hwin : ∀ x y : ℤ, cellInWindow (GridView.make r ox oy b) x y ↔
      (⌊(b.west - ox) / r⌋ ≤ x ∧ x < ⌈(b.east - ox) / r⌉ ∧
       ⌊(b.south - oy) / r⌋ ≤ y ∧ y < ⌈(b.north - oy) / r⌉) := by
    intro x y
    unfold cellInWindow GridView.make
    dsimp only
    constructor
    · rintro ⟨a1, a2, a3, a4⟩
      exact ⟨a1, by omega, a3, by omega⟩
    · rintro ⟨a1, a2, a3, a4⟩
      exact ⟨a1, by omega, a3, by omega⟩
  refine ⟨rfl, rfl, rfl, rfl, rfl, ?_, ?_, ?_⟩
  · intro x y
    rw [hwin x y, floor_le_iff_not_int hw, lt_ceil_iff_not_int he,
      floor_le_iff_not_int hs, lt_ceil_iff_not_int hn]
    unfold cellIntersectsClosed
    constructor
    · rintro ⟨h1, h2, h3, h4⟩
      refine ⟨?_, ?_, ?_, ?_⟩
      · have hm := (le_div_iff₀ hr).mp h2
        linarith
      · have hm := (div_le_iff₀ hr).mp h1
        linarith
      · have hm := (le_div_iff₀ hr).mp h4
        linarith
      · have hm := (div_le_iff₀ hr).mp h3
        linarith
    · rintro ⟨h1, h2, h3, h4⟩
      refine ⟨?_, ?_, ?_, ?_⟩
      · rw [div_le_iff₀ hr]
        linarith
      · rw [le_div_iff₀ hr]
        linarith
      · rw [div_le_iff₀ hr]
        linarith
      · rw [le_div_iff₀ hr]
        linarith
  · exact (sameAs_iff _ _).mpr ⟨rfl, rfl, rfl, rfl, rfl⟩
  · intro r2 ox2 oy2 b2 hsame
    rcases (sameAs_iff _ _).mp hsame with ⟨e1, e2, e3, e4, e5⟩
    dsimp only [GridView.make] at e1 e2 e3 e4 e5
    exact ⟨e1, e2, e3, by omega, by omega⟩

theorem c7_gridview_witness :
    (GridView.make 1 0 0 ⟨1/2, 1/2, 3/2, 3/2⟩).resolution = 1 ∧
    (GridView.make 1 0 0 ⟨1/2, 1/2, 3/2, 3/2⟩).minX
      = ⌊(((⟨1/2, 1/2, 3/2, 3/2⟩ : LatLngBounds)).west - 0) / 1⌋ ∧
    (GridView.make 1 0 0 ⟨1/2, 1/2, 3/2, 3/2⟩).minY
      = ⌊(((⟨1/2, 1/2, 3/2, 3/2⟩ : LatLngBounds)).south - 0) / 1⌋ ∧
    (GridView.make 1 0 0 ⟨1/2, 1/2, 3/2, 3/2⟩).stepsX
      = ⌈(((⟨1/2, 1/2, 3/2, 3/2⟩ : LatLngBounds)).east - 0) / 1⌉
        - ⌊(((⟨1/2, 1/2, 3/2, 3/2⟩ : LatLngBounds)).west - 0) / 1⌋ ∧
    (GridView.make 1 0 0 ⟨1/2, 1/2, 3/2, 3/2⟩).stepsY
      = ⌈(((⟨1/2, 1/2, 3/2, 3/2⟩ : LatLngBounds)).north - 0) / 1⌉
        - ⌊(((⟨1/2, 1/2, 3/2, 3/2⟩ : LatLngBounds)).south - 0) / 1⌋ ∧
    (∀ x y : ℤ, cellInWindow (GridView.make 1 0 0 ⟨1/2, 1/2, 3/2, 3/2⟩) x y ↔
      cellIntersectsClosed 1 0 0 ⟨1/2, 1/2, 3/2, 3/2⟩ x y) ∧
    (GridView.make 1 0 0 ⟨1/2, 1/2, 3/2, 3/2⟩).sameAs
      (GridView.make 1 0 0 ⟨1/2, 1/2, 3/2, 3/2⟩) = true ∧
    (∀ r2 ox2 oy2 : ℚ, ∀ b2 : LatLngBounds,
      (GridView.make 1 0 0 ⟨1/2, 1/2, 3/2, 3/2⟩).sameAs
        (GridView.make r2 ox2 oy2 b2) = true →
      r2 = 1 ∧
      ⌊(b2.west - ox2) / r2⌋
        = ⌊(((⟨1/2, 1/2, 3/2, 3/2⟩ : LatLngBounds)).west - 0) / 1⌋ ∧
      ⌊(b2.south - oy2) / r2⌋
        = ⌊(((⟨1/2, 1/2, 3/2, 3/2⟩ : LatLngBounds)).south - 0) / 1⌋ ∧
      ⌈(b2.east - ox2) / r2⌉
        = ⌈(((⟨1/2, 1/2, 3/2, 3/2⟩ : LatLngBounds)).east - 0) / 1⌉ ∧
      ⌈(b2.north - oy2) / r2⌉
        = ⌈(((⟨1/2, 1/2, 3/2, 3/2⟩ : LatLngBounds)).north - 0) / 1⌉) :=
  c7_gridview 1 0 0 ⟨1/2, 1/2, 3/2, 3/2⟩ (by norm_num) (by norm_num)
    (by norm_num) (by norm_num) (by norm_num)

/-- C8: the per-cell show step of updateView skips a cell that is already in
the active-tile set, leaving the whole LOD state unchanged, and hiding a cell
that is not active is a no-op on the whole LOD state. -/
theorem c8_show_hide_noop (s : LodState) (x y : Int) :
    (tileKey x y ∈ s.activeTiles → s.showCellIfNeeded x y = s) ∧
    (tileKey x y ∉ s.activeTiles → s.hideTile x y = s) :=
  ⟨fun hk => showCellIfNeeded_active hk, fun hk => hideTile_not_active hk⟩

theorem c8_show_hide_noop_witness :
    witState.showCellIfNeeded 0 0 = witState ∧ witState.hideTile 5 5 = witState :=
  ⟨(c8_show_hide_noop witState 0 0).1 (by decide),
   (c8_show_hide_noop witState 5 5).2 (by decide)⟩

/-- C9: clearActive performs a full teardown — afterwards the active-tile set
is empty, the feature-holder registry has no entries at all, the stored grid
view is cleared, and (in any state satisfying the invariant) the renderable
layer set is empty. -/
theorem c9_lod_switch_teardown (s : LodState) (hInv : StateInv s) :
    (s.clearActive).activeTiles = [] ∧
    (s.clearActive).featureHolders = (fun _ => none) ∧
    (s.clearActive).currentView = none ∧
    (s.clearActive).layers = [] := by
  refine ⟨rfl, rfl, rfl, ?_⟩
  simp only [LodState.clearActive]
  exact clearFold_layers s.activeTiles s (fun j hj => (hInv.layers_iff j).mp hj)

theorem c9_lod_switch_teardown_witness :
    (witState.clearActive).activeTiles = [] ∧
    (witState.clearActive).featureHolders 5 = none ∧
    (witState.clearActive).currentView = none ∧
    (witState.clearActive).layers = [] :=
  ⟨(c9_lod_switch_teardown witState stateInv_witState).1,
   congrFun (c9_lod_switch_teardown witState stateInv_witState).2.1 5,
   (c9_lod_switch_teardown witState stateInv_witState).2.2.1,
   (c9_lod_switch_teardown witState stateInv_witState).2.2.2⟩

/-- C10: hiding an active but not yet fulfilled (still loading) tile removes
its key from the active-tile set and changes nothing else: the registry, the
renderable layer set, and every tile object (including its masked state) are
untouched. -/
theorem c10_hide_loading_tile (s : LodState) (x y : Int) (t : Tile)
    (hk : tileKey x y ∈ s.activeTiles) (hts : s.tiles (tileKey x y) = some t)
    (hf : t.fulfilled = false) :
    (s.hideTile x y).activeTiles = setRemove s.activeTiles (tileKey x y) ∧
    tileKey x y ∉ (s.hideTile x y).activeTiles ∧
    (s.hideTile x y).featureHolders = s.featureHolders ∧
    (s.hideTile x y).layers = s.layers ∧
    (s.hideTile x y).tiles = s.tiles := by
  rw [hideTile_eq_unfulfilled hk hts hf]
  refine ⟨rfl, ?_, rfl, rfl, rfl⟩
  intro hmem
  have hmem2 : tileKey x y ∈ setRemove s.activeTiles (tileKey x y) := hmem
  exact absurd rfl (mem_setRemove.mp hmem2).2

theorem c10_hide_loading_tile_witness :
    (w1.hideTile 0 0).activeTiles = setRemove w1.activeTiles (tileKey 0 0) ∧
    tileKey 0 0 ∉ (w1.hideTile 0 0).activeTiles ∧
    (w1.hideTile 0 0).featureHolders = w1.featureHolders ∧
    (w1.hideTile 0 0).layers = w1.layers ∧
    (w1.hideTile 0 0).tiles = w1.tiles :=
  c10_hide_loading_tile w1 0 0 (freshTile (tileKey 0 0)) (by decide) (by decide)
    (by decide)

end Claims

end TGJ
